import Mathlib

/-!
# Verification of the tinybufr BUFR decoder

Shallow embedding of the decoder core of the `tinybufr` crate:

* `src/lib.rs` — the `Value` type and its `Debug` formatter,
* `src/descriptor.rs` — descriptors and `resolve_descriptors`,
* `src/reader.rs` — the pull-based data-section event reader,
* `src/sections.rs` — `ensure_end_section`.

Machine integers are modelled as `Nat`/`Int` with explicit wrapping
(`% 2^w`) where the source performs an `as` cast, and with explicit
range checks (`Err.panicked`) where a Rust debug build would panic on
an overflowing arithmetic operation.  The bit source is modelled as an
unbounded stream of bits (`Nat → Bool` plus a cursor), so genuine I/O
truncation does not arise inside the data section; oversized
`read_var` requests (more bits than the target type holds) are
modelled as errors, mirroring `bitstream_io`.  Cursors that the source
stores in `u16` are modelled as `Nat`; this is exact for every
descriptor list shorter than 65536 entries.
-/

deriving instance DecidableEq for Except

namespace TinyBufr

/-- Error kinds of `tinybufr::Error` (messages dropped; only the kind is
observable in the theorems).  `panicked` marks executions in which the Rust
code would panic (integer overflow in a debug build, out-of-bounds slice
index); `outOfFuel` is an artefact of fuel-indexed definitions and is never
produced by the embedded step functions themselves. -/
inductive Err where
  | ioError
  | tableErr
  | invalidData
  | notSupported
  | fatal
  | panicked
  | outOfFuel
deriving DecidableEq, Repr

/-- The `(x, y)` pair keying Tables B and D (`src/descriptor.rs`). -/
structure XY where
  x : ℕ
  y : ℕ
deriving DecidableEq, Repr

/-- A raw FXY descriptor (`src/descriptor.rs`); `f` is 2 bits, `x` 6 bits,
`y` 8 bits on the wire. -/
structure Descriptor where
  f : ℕ
  x : ℕ
  y : ℕ
deriving DecidableEq, Repr

/-- Table B element metadata (`src/tables/mod.rs`).  The string fields
(`class_name`, `element_name`, `unit`) are not consumed by the data-section
decoder and are omitted. -/
structure TableBEntry where
  xy : XY
  scale : ℤ
  referenceValue : ℤ
  bits : ℕ
deriving DecidableEq, Repr

/-- Table D sequence metadata (`src/tables/mod.rs`); only the key and the
child descriptor list are consumed by the resolver. -/
structure TableDEntry where
  xy : XY
  elements : List Descriptor
deriving DecidableEq, Repr

/-- The tables registry (`Tables` in `src/tables/mod.rs`), as lookup
functions. -/
structure Tables where
  tableB : XY → Option TableBEntry
  tableD : XY → Option TableDEntry

/-- Primitive BUFR value (`Value` in `src/lib.rs`).  A string value carries
its UTF-8 bytes. -/
inductive Value where
  | missing
  | decimal (mantissa : ℤ) (negScale : ℤ)
  | integer (v : ℤ)
  | string (bytes : List ℕ)
deriving DecidableEq, Repr

/-- Resolved descriptor tree (`ResolvedDescriptor` in `src/descriptor.rs`).
As in the source, there is no constructor for a raw f=1 descriptor:
replication is always structural. -/
inductive RDesc where
  | data (b : TableBEntry)
  | repl (y : ℕ) (delayedBits : ℕ) (children : List RDesc)
  | op (xy : XY)
  | seq (xy : XY) (children : List RDesc)
deriving Repr

/-- Event emitted by the data reader (`DataEvent` in `src/reader.rs`). -/
inductive Event where
  | subsetStart (i : ℕ)
  | subsetEnd
  | compressedStart
  | replicationStart (idx : ℕ) (count : ℕ)
  | replicationItemStart
  | replicationItemEnd
  | replicationEnd
  | sequenceStart (idx : ℕ) (xy : XY)
  | sequenceEnd
  | operatorHandled (idx : ℕ) (x : ℕ) (value : ℤ)
  | data (idx : ℕ) (xy : XY) (value : Value)
  | compressedData (idx : ℕ) (xy : XY) (values : List Value)
  | eof
deriving DecidableEq, Repr

/-! ## Machine-integer helpers -/

/-- Unsigned wrap-around of an `as uN` cast. -/
def wrapU (w : ℕ) (z : ℤ) : ℤ := z % (2 ^ w : ℤ)

/-- Two's-complement wrap-around of an `as iN` cast (also reinterpreting an
unsigned value of width `w` as signed). -/
def wrapS (w : ℕ) (z : ℤ) : ℤ := (z + 2 ^ (w - 1)) % (2 ^ w : ℤ) - 2 ^ (w - 1)

/-- Checked `i32` addition: a Rust debug build panics when the exact sum
leaves the `i32` range. -/
def i32Add (a b : ℤ) : Except Err ℤ :=
  if -(2 ^ 31) ≤ a + b ∧ a + b < 2 ^ 31 then .ok (a + b) else .error .panicked

/-- Checked `u32` addition: panics when the exact sum reaches `2^32`. -/
def u32Add (a b : ℕ) : Except Err ℕ :=
  if a + b < 2 ^ 32 then .ok (a + b) else .error .panicked

/-- Checked `i8` negation (`-scale` in the source): panics at `-128`. -/
def i8Neg (z : ℤ) : Except Err ℤ :=
  if z = -(2 ^ 7) then .error .panicked else .ok (-z)

/-! ## Bit reader

`bitstream_io::BitReader` over an unbounded big-endian bit stream. -/

/-- Bit source: an infinite stream of bits and the current bit position. -/
structure BitSrc where
  bits : ℕ → Bool
  pos : ℕ

/-- Advance the cursor by `n` bits. -/
def BitSrc.advance (s : BitSrc) (n : ℕ) : BitSrc := ⟨s.bits, s.pos + n⟩

/-- Big-endian accumulation of `n` bits starting at position `p`. -/
def readUintAux (bits : ℕ → Bool) : ℕ → ℕ → ℕ → ℕ
  | 0, _, acc => acc
  | n + 1, p, acc => readUintAux bits n (p + 1) (2 * acc + (if bits p then 1 else 0))

/-- The unsigned value of the next `n` bits (big-endian), without advancing. -/
def BitSrc.readUint (s : BitSrc) (n : ℕ) : ℕ := readUintAux s.bits n s.pos 0

/-- `read_var::<u32>(n)`: errors when asked for more bits than the target
type holds, otherwise yields the value and the advanced source. -/
def readVar32 (n : ℕ) (s : BitSrc) : Except Err (ℕ × BitSrc) :=
  if 32 < n then .error .ioError else .ok (s.readUint n, s.advance n)

/-- `read_var::<u16>(n)`: used for delayed replication counts. -/
def readVar16 (n : ℕ) (s : BitSrc) : Except Err (ℕ × BitSrc) :=
  if 16 < n then .error .ioError else .ok (s.readUint n, s.advance n)

/-- `read_to_vec(n)`: `n` whole bytes, each read as 8 bits from the current
bit position. -/
def readBytes : ℕ → BitSrc → List ℕ × BitSrc
  | 0, s => ([], s)
  | n + 1, s =>
      let b := s.readUint 8
      let (rest, s') := readBytes n (s.advance 8)
      (b :: rest, s')

/-! ## UTF-8 validity (`String::from_utf8`) -/

/-- A UTF-8 continuation byte. -/
def contByte (b : ℕ) : Bool := 128 ≤ b && b ≤ 191

/-- Validity of a byte sequence as UTF-8, mirroring the ranges accepted by
Rust's `String::from_utf8`. -/
def utf8Valid : List ℕ → Bool
  | [] => true
  | b :: rest =>
    if b ≤ 127 then utf8Valid rest
    else if 194 ≤ b && b ≤ 223 then
      match rest with
      | c1 :: r => contByte c1 && utf8Valid r
      | [] => false
    else if 224 ≤ b && b ≤ 239 then
      match rest with
      | c1 :: c2 :: r =>
        (if b = 224 then 160 ≤ c1 && c1 ≤ 191
         else if b = 237 then 128 ≤ c1 && c1 ≤ 159
         else contByte c1) && contByte c2 && utf8Valid r
      | _ => false
    else if 240 ≤ b && b ≤ 244 then
      match rest with
      | c1 :: c2 :: c3 :: r =>
        (if b = 240 then 144 ≤ c1 && c1 ≤ 191
         else if b = 244 then 128 ≤ c1 && c1 ≤ 143
         else contByte c1) && contByte c2 && contByte c3 && utf8Valid r
      | _ => false
    else false

/-! ## Value decoding (`handle_data_descriptor`, `src/reader.rs`) -/

/-- Subset-count / compression header plus the resolved roots
(`DataSpec` in `src/reader.rs`). -/
structure DataSpec where
  numberOfSubsets : ℕ
  isCompressed : Bool
  rootDescriptors : List RDesc

/-- Mutable operator state of the reader: the two offsets and the one-shot
latch set by the (6,y) operator. -/
structure OpState where
  widthOffset : ℤ
  scaleOffset : ℤ
  temporaryOperator : Option XY
deriving Repr

/-- The initial operator state (all offsets zero, no latch). -/
def OpState.init : OpState := ⟨0, 0, none⟩

/-- The if-chain turning a raw unsigned value into `Missing` / `Integer` /
`Decimal`.  The source spells this chain out three times (non-compressed,
compressed with `nbinc = 0`, compressed per-subset); it is factored once
here, byte for byte the same logic:
`v == ((1u64 << bit_width) - 1) as u32` → Missing; scale 0 →
`Integer(v as i32 + ref)` (a 32-bit add); otherwise
`Decimal((v as i64 + ref as i64) as i32, -scale)`. -/
def decodeScalar (bitWidth : ℕ) (scaleEff refValue : ℤ) (vRaw : ℕ) : Except Err Value :=
  if vRaw = (2 ^ bitWidth - 1) % 2 ^ 32 then .ok .missing
  else if scaleEff = 0 then
    (i32Add (wrapS 32 vRaw) refValue).map .integer
  else do
    let ns ← i8Neg scaleEff
    .ok (.decimal (wrapS 32 ((vRaw : ℤ) + refValue)) ns)

/-- The per-subset loop of the compressed branch
(`(0..N).map(...).collect()` in the source): read `nbinc` bits, add the
local reference (a `u32` add), decode. -/
def readIncrements (bitWidth : ℕ) (scaleEff refValue : ℤ) (localRef nbinc : ℕ) :
    ℕ → BitSrc → Except Err (List Value × BitSrc)
  | 0, s => .ok ([], s)
  | n + 1, s => do
    let r1 ← readVar32 nbinc s
    let vRaw ← u32Add localRef r1.1
    let v ← decodeScalar bitWidth scaleEff refValue vRaw
    let r2 ← readIncrements bitWidth scaleEff refValue localRef nbinc n r1.2
    .ok (v :: r2.1, r2.2)

/-- The effective bit width
`(b.bits as i32 + self.width_offset as i32) as u32` (the `i32` sum cannot
itself overflow, `bits` being a `u16` and the offset an `i8`). -/
def effWidth (ops : OpState) (b : TableBEntry) : ℕ :=
  (wrapU 32 ((b.bits : ℤ) + ops.widthOffset)).toNat

/-- The effective scale `(b.scale as i16 + self.scale_offset as i16) as i8`
(the `i16` sum is exact; only the final `i8` cast can wrap). -/
def effScale (ops : OpState) (b : TableBEntry) : ℤ :=
  wrapS 8 (b.scale + ops.scaleOffset)

/-- `handle_data_descriptor` (f = 0): widths up to 32 take the numeric
path (compressed or not), larger multiples of 8 the character path,
anything else is invalid data. -/
def handleDataDescriptor (sp : DataSpec) (ops : OpState) (idx : ℕ) (b : TableBEntry)
    (src : BitSrc) : Except Err (Event × BitSrc) :=
  let bitWidth : ℕ := effWidth ops b
  let refValue := b.referenceValue
  let scaleEff := effScale ops b
  if bitWidth ≤ 32 then
    if sp.isCompressed then do
      let r1 ← readVar32 bitWidth src
      let r2 ← readVar32 6 r1.2
      if r2.1 = 0 then do
        let v ← decodeScalar bitWidth scaleEff refValue r1.1
        .ok (.compressedData idx b.xy (List.replicate sp.numberOfSubsets v), r2.2)
      else do
        let r3 ← readIncrements bitWidth scaleEff refValue r1.1 r2.1
          sp.numberOfSubsets r2.2
        .ok (.compressedData idx b.xy r3.1, r3.2)
    else do
      let r1 ← readVar32 bitWidth src
      let v ← decodeScalar bitWidth scaleEff refValue r1.1
      .ok (.data idx b.xy v, r1.2)
  else if bitWidth % 8 = 0 then
    let r := readBytes (bitWidth / 8) src
    if r.1.all (fun x => x = 255) then .ok (.data idx b.xy .missing, r.2)
    else if utf8Valid r.1 then
      if sp.isCompressed then .error .notSupported
      else .ok (.data idx b.xy (.string r.1), r.2)
    else .error .invalidData
  else .error .invalidData

/-- `handle_operator_descriptor` (f = 2): the (1,y)/(2,y) offset operators,
the (6,y) one-shot latch, and a not-supported error for everything else.
The `(y as i16) - 128) as i8` cast is exact for every wire value of `y`
(0..255). -/
def handleOperatorDescriptor (idx : ℕ) (xy : XY) (ops : OpState) :
    Except Err (Event × OpState) :=
  if xy.x = 1 then
    if xy.y = 0 then .ok (.operatorHandled idx xy.x (xy.y : ℤ), { ops with widthOffset := 0 })
    else .ok (.operatorHandled idx xy.x (xy.y : ℤ), { ops with widthOffset := (xy.y : ℤ) - 128 })
  else if xy.x = 2 then
    if xy.y = 0 then .ok (.operatorHandled idx xy.x (xy.y : ℤ), { ops with scaleOffset := 0 })
    else .ok (.operatorHandled idx xy.x (xy.y : ℤ), { ops with scaleOffset := (xy.y : ℤ) - 128 })
  else if xy.x = 6 then
    .ok (.operatorHandled idx xy.x (xy.y : ℤ), { ops with temporaryOperator := some xy })
  else .error .notSupported

/-! ## Descriptor resolution (`resolve_descriptors`, `src/descriptor.rs`)

The Rust function recurses through Table D entries, so it is not
structurally recursive on its input; a fuel parameter (decremented on
every recursive call) makes the embedding total and executable.  Fuel
exhaustion is `Err.outOfFuel`, which the theorems quantify away. -/

/-- The delayed-replication count markers: the descriptor following a
delayed replication must be one of `(0,31,0..3)`; anything else is fatal. -/
def delayedBitsOf (d : Descriptor) : Except Err ℕ :=
  if d = ⟨0, 31, 0⟩ then .ok 1
  else if d = ⟨0, 31, 1⟩ then .ok 8
  else if d = ⟨0, 31, 2⟩ then .ok 16
  else if d = ⟨0, 31, 3⟩ then .ok 8
  else .error .fatal

/-- `ResolvedDescriptor::from_descriptor` for f ≠ 1 combined with the
`resolve_descriptors` loop.  The f = 1 branch consumes the following
marker descriptor when y = 0: indexing `descriptors[pos]` past the end of
the list is a Rust panic, modelled as `Err.panicked`.  The span bound
check (`pos + x > descriptors.len()`) is a fatal error. -/
def resolveDescriptors (t : Tables) : ℕ → List Descriptor → Except Err (List RDesc)
  | 0, _ => .error .outOfFuel
  | _ + 1, [] => .ok []
  | fuel + 1, d :: rest =>
    match d.f with
    | 1 =>
      if d.y = 0 then
        match rest with
        | [] => .error .panicked
        | marker :: rest2 => do
          let db ← delayedBitsOf marker
          if rest2.length < d.x then .error .fatal
          else do
            let children ← resolveDescriptors t fuel (rest2.take d.x)
            let tail ← resolveDescriptors t fuel (rest2.drop d.x)
            .ok (.repl d.y db children :: tail)
      else
        if rest.length < d.x then .error .fatal
        else do
          let children ← resolveDescriptors t fuel (rest.take d.x)
          let tail ← resolveDescriptors t fuel (rest.drop d.x)
          .ok (.repl d.y 0 children :: tail)
    | 0 =>
      match t.tableB ⟨d.x, d.y⟩ with
      | none => .error .fatal
      | some b => do
        let tail ← resolveDescriptors t fuel rest
        .ok (.data b :: tail)
    | 2 => do
      let tail ← resolveDescriptors t fuel rest
      .ok (.op ⟨d.x, d.y⟩ :: tail)
    | 3 =>
      match t.tableD ⟨d.x, d.y⟩ with
      | none => .error .fatal
      | some entry => do
        let children ← resolveDescriptors t fuel entry.elements
        let tail ← resolveDescriptors t fuel rest
        .ok (.seq entry.xy children :: tail)
    | _ => .error .fatal

/-! ## End-of-message check (`ensure_end_section`, `src/sections.rs`) -/

/-- The universal four-byte `"7777"` check: `read_exact` fails with an I/O
error when fewer than four bytes remain, a content mismatch is fatal. -/
def checkTrailer (l : List ℕ) : Except Err Unit :=
  if l.length < 4 then .error .ioError
  else if l.take 4 = [55, 55, 55, 55] then .ok ()
  else .error .fatal

/-- `ensure_end_section`: for edition 3 one boundary byte is consumed
first — `0x00`, or `'7'` which must be followed by `"777"` — and only then
the universal `"7777"` trailer is read. -/
def ensureEndSection (edition : ℕ) (l : List ℕ) : Except Err Unit :=
  if edition = 3 then
    match l with
    | [] => .error .ioError
    | b :: rest =>
      if b = 0 then checkTrailer rest
      else if b = 55 then
        if rest.length < 3 then .error .ioError
        else if rest.take 3 = [55, 55, 55] then checkTrailer (rest.drop 3)
        else .error .fatal
      else .error .fatal
  else checkTrailer l

/-! ## The `Debug` formatter for `Value` (`src/lib.rs`)

`Value::Decimal(v, s)` is printed as `v as f64 * 10f64.powi(s)` with
precision `-s` when `s < 0` and `0` otherwise.  The f64 pipeline is
modelled in exact rational arithmetic: the printed text denotes the
rational obtained by rounding the exact value to that many decimal
places.  For every `i32` mantissa the decimal rounding of the f64
product agrees with the exact rounding (the value is never within half
an ulp of a rounding boundary), and the model reproduces the values
pinned by the crate's own `test_value_fmt`. -/

/-- The rational value denoted by the text `{:.prec$}` printed for
`Decimal(m, s)`: the exact value `m·10^s` rounded to
`prec = max 0 (-s)` decimal places. -/
def decimalRendered (m s : ℤ) : ℚ :=
  let prec : ℕ := if s < 0 then (-s).toNat else 0
  (round ((m : ℚ) * (10 : ℚ) ^ s * (10 : ℚ) ^ prec) : ℚ) / (10 : ℚ) ^ prec

/-- Sanity: the model reproduces `assert_eq!(format!("{:?}", Value::Decimal(1234, -2)), "12.34")`. -/
theorem decimalRendered_fmt_neg : decimalRendered 1234 (-2) = 1234 / 100 := by
  unfold decimalRendered
  norm_num [show ((2 : ℤ)).toNat = 2 from rfl]

/-- Sanity: the model reproduces `assert_eq!(format!("{:?}", Value::Decimal(1234, 2)), "123400")`. -/
theorem decimalRendered_fmt_pos : decimalRendered 1234 2 = 123400 := by
  norm_num [decimalRendered]

/-! ## The pull-based event reader (`DataReader`, `src/reader.rs`) -/

/-- Frame kind (`StackEntryType`). -/
inductive FrameTy where
  | sequence
  | replication (remaining : ℕ) (inItem : Bool)
deriving DecidableEq, Repr

/-- Stack frame (`StackEntry`): a kind, the child list it walks, and the
cursor into that list (a `u16` in the source, exact for lists shorter
than 65536 entries). -/
structure Frame where
  ty : FrameTy
  descriptors : List RDesc
  next : ℕ

/-- The full reader state (`DataReader` minus the borrowed spec): subset
counter, bit reader, stack, operator state. -/
structure MState where
  subsetIdx : ℕ
  src : BitSrc
  stack : List Frame
  ops : OpState

/-- The state right after `DataReader::new` (the data-section header has
been consumed by the constructor; `src` starts at the first payload bit). -/
def initState (src : BitSrc) : MState := ⟨0, src, [], OpState.init⟩

/-- The descriptor dispatch of `process_next_descriptor`: the cursor has
already been advanced past `d`; each arm mirrors the corresponding
`handle_*` method. -/
def stepDescriptor (sp : DataSpec) (s : MState) : Frame → List Frame → RDesc →
    Except Err (Event × MState)
  | ⟨ty, ds, nx⟩, rest, .data b => do
    let r ← handleDataDescriptor sp s.ops nx b s.src
    .ok (r.1, { s with src := r.2, stack := ⟨ty, ds, nx + 1⟩ :: rest })
  | ⟨ty, ds, nx⟩, rest, .op xy => do
    let r ← handleOperatorDescriptor nx xy s.ops
    .ok (r.1, { s with ops := r.2, stack := ⟨ty, ds, nx + 1⟩ :: rest })
  | ⟨ty, ds, nx⟩, rest, .seq xy children =>
    .ok (.sequenceStart nx xy,
      { s with stack := ⟨.sequence, children, 0⟩ :: ⟨ty, ds, nx + 1⟩ :: rest })
  | ⟨ty, ds, nx⟩, rest, .repl y db children => do
    let r ← if y = 0 then readVar16 db s.src else .ok (y, s.src)
    .ok (.replicationStart nx r.1,
      { s with src := r.2,
               stack := ⟨.replication r.1 false, children, children.length⟩ ::
                 ⟨ty, ds, nx + 1⟩ :: rest })

/-- `process_next_descriptor`: replication frames first handle item
boundaries once their cursor is past the end; an exhausted frame is popped
(emitting `SequenceEnd`, `SubsetEnd` or `Eof` depending on what remains);
otherwise the next child is dispatched. -/
def processTop (sp : DataSpec) (s : MState) : Frame → List Frame →
    Except Err (Event × MState)
  | ⟨.replication remaining inItem, ds, nx⟩, rest =>
    if ds.length ≤ nx then
      if inItem then
        .ok (.replicationItemEnd,
          { s with stack := ⟨.replication remaining false, ds, nx⟩ :: rest })
      else
        match remaining with
        | r + 1 =>
          .ok (.replicationItemStart,
            { s with stack := ⟨.replication r true, ds, 0⟩ :: rest })
        | 0 => .ok (.replicationEnd, { s with stack := rest })
    else
      match ds[nx]? with
      | some d => stepDescriptor sp s ⟨.replication remaining inItem, ds, nx⟩ rest d
      | none => .error .panicked
  | ⟨.sequence, ds, nx⟩, rest =>
    if ds.length ≤ nx then
      match rest, sp.isCompressed with
      | _ :: _, _ => .ok (.sequenceEnd, { s with stack := rest })
      | [], true => .ok (.eof, { s with stack := rest })
      | [], false => .ok (.subsetEnd, { s with stack := rest })
    else
      match ds[nx]? with
      | some d => stepDescriptor sp s ⟨.sequence, ds, nx⟩ rest d
      | none => .error .panicked

/-- `DataReader::read_event`: with an empty stack either finish (`Eof`) or
open the next subset (or the single compressed pass); otherwise process the
top frame. -/
def readEvent (sp : DataSpec) (s : MState) : Except Err (Event × MState) :=
  match s.stack with
  | [] =>
    if sp.isCompressed then
      if 0 < s.subsetIdx then .ok (.eof, s)
      else
        .ok (.compressedStart,
          { s with subsetIdx := s.subsetIdx + 1,
                   stack := [⟨.sequence, sp.rootDescriptors, 0⟩] })
    else if s.subsetIdx = sp.numberOfSubsets then .ok (.eof, s)
    else
      .ok (.subsetStart s.subsetIdx,
        { s with subsetIdx := s.subsetIdx + 1,
                 stack := [⟨.sequence, sp.rootDescriptors, 0⟩] })
  | top :: rest => processTop sp s top rest

/-- Repeatedly call `read_event` until `Eof`, collecting the events
(the caller loop; fuel-indexed so it is total). -/
def runEvents (sp : DataSpec) : ℕ → MState → Except Err (List Event)
  | 0, _ => .error .outOfFuel
  | fuel + 1, s =>
    match readEvent sp s with
    | .error e => .error e
    | .ok (.eof, _) => .ok [.eof]
    | .ok (e, s') => (runEvents sp fuel s').map (fun l => e :: l)

/-- `StepsTo sp s evs s'`: the reader steps from `s` to `s'` emitting
exactly `evs`, none of which is `Eof`. -/
inductive StepsTo (sp : DataSpec) : MState → List Event → MState → Prop where
  | refl (s : MState) : StepsTo sp s [] s
  | step {s : MState} {e : Event} {s₁ : MState} {evs : List Event} {s₂ : MState} :
      readEvent sp s = .ok (e, s₁) → e ≠ .eof → StepsTo sp s₁ evs s₂ →
      StepsTo sp s (e :: evs) s₂

/-! ## The event grammar of the specification (§4.4)

These definitions follow the spec's words (the recursive grammar
`walk(list)` plus the per-message subset loop), reusing the embedded
value/operator decoding for the event payloads.  They are the
specification side of the refinement theorems: the machine above is
proved to emit exactly these sequences.  All are fuel-indexed
(decrementing on every call) so they are total and executable. -/

/-- Decode state threaded through a walk: the bit source and the operator
offsets. -/
structure DState where
  src : BitSrc
  ops : OpState

mutual

/-- `walk(list)` of spec §4.4: children in order, each emitting its events;
`startIdx` is the cursor value reported in the events. -/
def specWalkList (sp : DataSpec) : ℕ → DState → ℕ → List RDesc →
    Except Err (List Event × DState)
  | 0, _, _, _ => .error .outOfFuel
  | _ + 1, st, _, [] => .ok ([], st)
  | fuel + 1, st, i, d :: t => do
    let r1 ← specWalkDesc sp fuel st i d
    let r2 ← specWalkList sp fuel r1.2 (i + 1) t
    .ok (r1.1 ++ r2.1, r2.2)

/-- One child of `walk`: `Data` → one data event; `Sequence` →
`SequenceStart walk SequenceEnd`; `Replication` → `ReplicationStart`,
`count` item blocks, `ReplicationEnd` (the delayed count is read from the
bit stream on entry); `Operator` → state change plus `OperatorHandled`. -/
def specWalkDesc (sp : DataSpec) : ℕ → DState → ℕ → RDesc →
    Except Err (List Event × DState)
  | 0, _, _, _ => .error .outOfFuel
  | _ + 1, st, idx, .data b => do
    let r ← handleDataDescriptor sp st.ops idx b st.src
    .ok ([r.1], ⟨r.2, st.ops⟩)
  | _ + 1, st, idx, .op xy => do
    let r ← handleOperatorDescriptor idx xy st.ops
    .ok ([r.1], ⟨st.src, r.2⟩)
  | fuel + 1, st, idx, .seq xy children => do
    let r ← specWalkList sp fuel st 0 children
    .ok (.sequenceStart idx xy :: r.1 ++ [.sequenceEnd], r.2)
  | fuel + 1, st, idx, .repl y db children => do
    let rc ← if y = 0 then readVar16 db st.src else .ok (y, st.src)
    let r ← specReplItems sp fuel ⟨rc.2, st.ops⟩ children rc.1
    .ok (.replicationStart idx rc.1 :: r.1 ++ [.replicationEnd], r.2)

/-- The `count` iterations of a replication: each one is
`ReplicationItemStart walk(children) ReplicationItemEnd`. -/
def specReplItems (sp : DataSpec) : ℕ → DState → List RDesc → ℕ →
    Except Err (List Event × DState)
  | 0, _, _, _ => .error .outOfFuel
  | _ + 1, st, _, 0 => .ok ([], st)
  | fuel + 1, st, children, k + 1 => do
    let r1 ← specWalkList sp fuel st 0 children
    let r2 ← specReplItems sp fuel r1.2 children k
    .ok (.replicationItemStart :: r1.1 ++ .replicationItemEnd :: r2.1, r2.2)

end

/-- The non-compressed subset loop of spec §4.4:
`(SubsetStart(i) walk(roots) SubsetEnd)^N Eof`, decoder state (bit
position and operator offsets) carried across subsets. -/
def specSubsets (sp : DataSpec) : ℕ → DState → ℕ → Except Err (List Event)
  | 0, _, _ => .error .outOfFuel
  | fuel + 1, st, i =>
    if i = sp.numberOfSubsets then .ok [.eof]
    else do
      let r ← specWalkList sp fuel st 0 sp.rootDescriptors
      let rest ← specSubsets sp fuel r.2 (i + 1)
      .ok (.subsetStart i :: r.1 ++ .subsetEnd :: rest)

/-- The whole message trace of spec §4.4: the subset loop, or — compressed —
`CompressedStart walk(roots) Eof`, walked once regardless of the subset
count. -/
def specMessageTrace (sp : DataSpec) (fuel : ℕ) (src : BitSrc) :
    Except Err (List Event) :=
  if sp.isCompressed then do
    let r ← specWalkList sp fuel ⟨src, OpState.init⟩ 0 sp.rootDescriptors
    .ok (.compressedStart :: r.1 ++ [.eof])
  else specSubsets sp fuel ⟨src, OpState.init⟩ 0

/-! ## Event-nesting checker

A stack-based matcher for the well-nestedness part of the claims: every
`Start` is closed by its matching `End` in LIFO order, and `Eof` occurs
exactly once, last, with an empty stack.  `CompressedStart` has no
matching end in the grammar and data/operator events do not nest. -/

/-- Nesting tags. -/
inductive Tag where
  | subsetT
  | seqT
  | replT
  | itemT
deriving DecidableEq, Repr

/-- Run the matcher over a message trace: `some stk` is the open-frame
stack after the events, `none` a nesting violation. -/
def nestAux : List Tag → List Event → Option (List Tag)
  | stk, [] => some stk
  | stk, e :: rest =>
    match e, stk with
    | .subsetStart _, _ => nestAux (.subsetT :: stk) rest
    | .subsetEnd, .subsetT :: stk' => nestAux stk' rest
    | .sequenceStart _ _, _ => nestAux (.seqT :: stk) rest
    | .sequenceEnd, .seqT :: stk' => nestAux stk' rest
    | .replicationStart _ _, _ => nestAux (.replT :: stk) rest
    | .replicationEnd, .replT :: stk' => nestAux stk' rest
    | .replicationItemStart, _ => nestAux (.itemT :: stk) rest
    | .replicationItemEnd, .itemT :: stk' => nestAux stk' rest
    | .compressedStart, _ => nestAux stk rest
    | .operatorHandled _ _ _, _ => nestAux stk rest
    | .data _ _ _, _ => nestAux stk rest
    | .compressedData _ _ _, _ => nestAux stk rest
    | .eof, [] => if rest = [] then some [] else none
    | _, _ => none

/-- A whole message trace is well nested: the matcher succeeds with all
counters back at zero. -/
def nestOk (evs : List Event) : Bool := nestAux [] evs == some []

/-- A balanced inner segment (no `Eof`, every `Start` matched inside). -/
def nestClosed (evs : List Event) : Bool := nestAux [] evs == some []

/-- Does the event open a subset? (for the subset-count property). -/
def isSubsetStart : Event → Bool
  | .subsetStart _ => true
  | _ => false

/-- Is the event the compressed-mode opener? -/
def isCompressedStart : Event → Bool
  | .compressedStart => true
  | _ => false

/-- Forget the returned bit source of a decode step, keeping only the
event (used to state concrete evaluations without comparing stream
functions). -/
def evResult (r : Except Err (Event × BitSrc)) : Except Err Event :=
  r.map Prod.fst

/-- An empty tables registry (enough for the resolver claims that do not
perform lookups). -/
def emptyTables : Tables := ⟨fun _ => none, fun _ => none⟩

/-- Reduction of `Except` bind on a success value. -/
theorem exc_ok_bind {α β : Type} (a : α) (f : α → Except Err β) :
    ((Except.ok a : Except Err α) >>= f) = f a := rfl

/-- Reduction of `Except` bind on an error. -/
theorem exc_error_bind {α β : Type} (e : Err) (f : α → Except Err β) :
    ((Except.error e : Except Err α) >>= f) = .error e := rfl

/-! # Theorems

From here on: the claim theorems, their counterexamples and witnesses, and
the helper lemmas they share. -/

/-! ## C1 — the Decimal formatter -/

/-- C1 (counterexample).  The claim says the rendered text of
`Decimal(m, s)` is within `10^(-s)/2` of `m · 10^(-s)`.  At the value
`Decimal(1234, -2)` — rendered `"12.34"`, as pinned by the crate's own
`test_value_fmt` — the claimed reference value `1234 · 10^(-(-2)) = 123400`
is off by far more than `10^2 / 2 = 50`, so the claim is false as stated:
the second constructor argument is the exponent itself, not a negated
scale. -/
theorem c1_counterexample :
    ¬ |decimalRendered 1234 (-2) - (1234 : ℚ) * (10 : ℚ) ^ (-(-2 : ℤ))| <
        (10 : ℚ) ^ (-(-2 : ℤ)) / 2 := by
  rw [decimalRendered_fmt_neg]
  rw [show (-(-2 : ℤ)) = ((2 : ℕ) : ℤ) by norm_num, zpow_natCast]
  rw [abs_lt]
  norm_num

/-- C1 (amended).  For `Decimal(m, s)` the rendered textual form differs
from `m · 10^s` — the stored field is the exponent of the logical value,
`value = mantissa · 10^(neg_scale)` — by strictly less than `10^s / 2`.
In the exact-arithmetic model the rendering is in fact exact. -/
theorem c1_decimal_roundtrip (m s : ℤ) :
    |decimalRendered m s - (m : ℚ) * (10 : ℚ) ^ s| < (10 : ℚ) ^ s / 2 := by
  have h10 : (0 : ℚ) < (10 : ℚ) ^ s := zpow_pos (by norm_num) s
  suffices h : decimalRendered m s = (m : ℚ) * (10 : ℚ) ^ s by
    rw [h, sub_self, abs_zero]
    positivity
  unfold decimalRendered
  by_cases hs : s < 0
  · simp only [if_pos hs]
    have hpow : (10 : ℚ) ^ s * (10 : ℚ) ^ ((-s).toNat) = 1 := by
      rw [← zpow_natCast (10 : ℚ) ((-s).toNat), Int.toNat_of_nonneg (by omega),
        ← zpow_add₀ (by norm_num)]
      simp
    rw [mul_assoc, hpow, mul_one, round_intCast]
    field_simp
    calc (m : ℚ) = m * ((10 : ℚ) ^ s * (10 : ℚ) ^ ((-s).toNat)) := by rw [hpow, mul_one]
    _ = m * (10 : ℚ) ^ s * (10 : ℚ) ^ ((-s).toNat) := by ring
  · simp only [if_neg hs]
    have hcast : (m : ℚ) * (10 : ℚ) ^ s * (10 : ℚ) ^ (0 : ℕ) = ((m * 10 ^ s.toNat : ℤ) : ℚ) := by
      push_cast
      rw [← zpow_natCast (10 : ℚ) s.toNat, Int.toNat_of_nonneg (by omega)]
      ring
    rw [hcast, round_intCast, ← hcast]
    simp

/-! ## C5 — the end-of-message check -/

/-- `checkTrailer` succeeds exactly when the next four bytes are `"7777"`. -/
theorem checkTrailer_ok (l : List ℕ) :
    checkTrailer l = .ok () ↔ l.take 4 = [55, 55, 55, 55] := by
  unfold checkTrailer
  split_ifs with h1 h2
  · simp only [false_iff]
    intro hc
    have := congrArg List.length hc
    simp [List.length_take] at this
    omega
  · simp [h2]
  · simp [h2]

/-- Unfolding of the edition-3 branch of `ensureEndSection` on a non-empty
stream. -/
theorem ensureEnd3_cons (b : ℕ) (rest : List ℕ) :
    ensureEndSection 3 (b :: rest) =
      (if b = 0 then checkTrailer rest
       else if b = 55 then
         if rest.length < 3 then .error .ioError
         else if rest.take 3 = [55, 55, 55] then checkTrailer (rest.drop 3)
         else .error .fatal
       else .error .fatal) := rfl

/-- C5 (counterexample).  An edition-3 stream whose trailer is exactly the
four bytes `"7777"` does **not** succeed: the code unconditionally consumes
a legacy boundary byte for edition 3, so the leading `'7'` and the
following `"777"` are eaten and the subsequent mandatory four-byte read
hits end-of-stream (an I/O error).  The claim asserts this input
succeeds. -/
theorem c5_counterexample :
    ensureEndSection 3 [55, 55, 55, 55] = .error .ioError := by decide

/-- C5 (amended).  The check succeeds exactly when: for editions other
than 3 the next four bytes are `"7777"`; for edition 3 a boundary byte is
mandatory — either `0x00` followed by `"7777"` (five bytes), or a `'7'`
that must be followed by `"777"` and then the full `"7777"` trailer
(eight `'7'` bytes in total).  A content mismatch is a fatal error (in
particular a `"7778"` trailer in edition 4), and truncation an I/O
error. -/
theorem c5_end_marker :
    (∀ (edition : ℕ) (l : List ℕ),
        ensureEndSection edition l = .ok () ↔
          ((edition ≠ 3 ∧ l.take 4 = [55, 55, 55, 55]) ∨
           (edition = 3 ∧
             (l.take 5 = [0, 55, 55, 55, 55] ∨
              l.take 8 = [55, 55, 55, 55, 55, 55, 55, 55])))) ∧
    ensureEndSection 4 [55, 55, 55, 56] = .error .fatal ∧
    ensureEndSection 3 [0, 55, 55, 55, 55] = .ok () ∧
    ensureEndSection 3 [55, 55, 55, 55, 55, 55, 55, 55] = .ok () := by
  refine ⟨?_, by decide, by decide, by decide⟩
  intro edition l
  by_cases he : edition = 3
  · subst he
    simp only [ne_eq, not_true_eq_false, false_and, false_or, true_and]
    match l with
    | [] => simp [ensureEndSection]
    | b :: rest =>
      rw [ensureEnd3_cons]
      by_cases hb : b = 0
      · subst hb
        rw [if_pos rfl, checkTrailer_ok]
        simp [List.take]
      · rw [if_neg hb]
        by_cases hb7 : b = 55
        · subst hb7
          rw [if_pos rfl]
          match rest with
          | [] => simp [List.take]
          | [r1] => simp [List.take]
          | [r1, r2] => simp [List.take]
          | r1 :: r2 :: r3 :: rest3 =>
            rw [if_neg (by simp)]
            by_cases h777 : r1 = 55 ∧ r2 = 55 ∧ r3 = 55
            · obtain ⟨hr1, hr2, hr3⟩ := h777
              subst hr1; subst hr2; subst hr3
              rw [if_pos (by simp [List.take]), show (55 :: 55 :: 55 :: rest3).drop 3 = rest3
                from rfl, checkTrailer_ok]
              simp [List.take]
            · have htk : ¬ (r1 :: r2 :: r3 :: rest3).take 3 = [55, 55, 55] := by
                simpa [List.take] using h777
              rw [if_neg htk]
              simp only [List.take]
              constructor
              · intro hc
                exact absurd hc (by simp)
              · rintro (hc | hc) <;> simp only [List.cons.injEq] at hc <;> tauto
        · rw [if_neg hb7]
          simp only [List.take]
          constructor
          · intro hc
            exact absurd hc (by simp)
          · rintro (hc | hc) <;> simp only [List.cons.injEq] at hc <;> tauto
  · rw [ensureEndSection.eq_def]
    simp [he, checkTrailer_ok]

/-! ## C8 / C10 — the descriptor resolver -/

/-- Unfolding of the resolver on a delayed replication followed by a
marker. -/
theorem resolveDescriptors_delayed_cons (t : Tables) (fuel x : ℕ) (m : Descriptor)
    (rest2 : List Descriptor) :
    resolveDescriptors t (fuel + 1) (⟨1, x, 0⟩ :: m :: rest2) =
      (do
        let db ← delayedBitsOf m
        if rest2.length < x then .error .fatal
        else do
          let children ← resolveDescriptors t fuel (rest2.take x)
          let tail ← resolveDescriptors t fuel (rest2.drop x)
          .ok (.repl 0 db children :: tail)) := rfl

/-- Unfolding of the resolver on a trailing delayed replication. -/
theorem resolveDescriptors_delayed_last (t : Tables) (fuel x : ℕ) :
    resolveDescriptors t (fuel + 1) [⟨1, x, 0⟩] = .error .panicked := rfl

/-- C8.  Delayed replication consumes the following marker descriptor and
maps it `(0,31,0) → 1`, `(0,31,1) → 8`, `(0,31,2) → 16`, `(0,31,3) → 8`
bits; any other marker is fatal; a span reaching past the end of the input
is fatal; and whenever an f = 1 descriptor resolves successfully, the
head of the output is a structural `Replication` node (the resolved tree
type has no constructor for a raw f = 1 descriptor, mirroring the Rust
enum). -/
theorem c8_resolver :
    (delayedBitsOf ⟨0, 31, 0⟩ = .ok 1 ∧ delayedBitsOf ⟨0, 31, 1⟩ = .ok 8 ∧
     delayedBitsOf ⟨0, 31, 2⟩ = .ok 16 ∧ delayedBitsOf ⟨0, 31, 3⟩ = .ok 8) ∧
    (∀ m : Descriptor,
      m ∉ [(⟨0, 31, 0⟩ : Descriptor), ⟨0, 31, 1⟩, ⟨0, 31, 2⟩, ⟨0, 31, 3⟩] →
      delayedBitsOf m = .error .fatal) ∧
    (∀ (t : Tables) (fuel x : ℕ) (m : Descriptor) (db : ℕ) (rest : List Descriptor),
      delayedBitsOf m = .ok db → rest.length < x →
      resolveDescriptors t (fuel + 1) (⟨1, x, 0⟩ :: m :: rest) = .error .fatal) ∧
    (∀ (t : Tables) (fuel x : ℕ) (m : Descriptor) (db : ℕ) (rest : List Descriptor),
      delayedBitsOf m = .ok db → x ≤ rest.length →
      resolveDescriptors t (fuel + 1) (⟨1, x, 0⟩ :: m :: rest) = do
        let children ← resolveDescriptors t fuel (rest.take x)
        let tail ← resolveDescriptors t fuel (rest.drop x)
        .ok (.repl 0 db children :: tail)) ∧
    (∀ (t : Tables) (fuel x y : ℕ) (rest : List Descriptor) (out : List RDesc),
      resolveDescriptors t fuel (⟨1, x, y⟩ :: rest) = .ok out →
      ∃ db children tail, out = .repl y db children :: tail) := by
  refine ⟨⟨rfl, rfl, rfl, rfl⟩, ?_, ?_, ?_, ?_⟩
  · intro m hm
    simp only [List.mem_cons, List.mem_singleton, not_or] at hm
    obtain ⟨h0, h1, h2, h3, -⟩ := hm
    simp [delayedBitsOf, h0, h1, h2, h3]
  · intro t fuel x m db rest hm hlen
    rw [resolveDescriptors_delayed_cons, hm, exc_ok_bind, if_pos hlen]
  · intro t fuel x m db rest hm hlen
    rw [resolveDescriptors_delayed_cons, hm, exc_ok_bind,
      if_neg (by omega : ¬ rest.length < x)]
  · intro t fuel x y rest out h
    match fuel with
    | 0 => exact absurd h (by simp [resolveDescriptors])
    | fuel + 1 =>
      by_cases hy : y = 0
      · subst hy
        match rest with
        | [] => rw [resolveDescriptors_delayed_last] at h; exact absurd h (by simp)
        | m :: rest2 =>
          rw [resolveDescriptors_delayed_cons] at h
          match hdb : delayedBitsOf m with
          | .error e => rw [hdb, exc_error_bind] at h; exact absurd h (by simp)
          | .ok db =>
            rw [hdb, exc_ok_bind] at h
            split at h
            · exact absurd h (by simp)
            · match hch : resolveDescriptors t fuel (rest2.take x) with
              | .error e => rw [hch, exc_error_bind] at h; exact absurd h (by simp)
              | .ok children =>
                rw [hch, exc_ok_bind] at h
                match htl : resolveDescriptors t fuel (rest2.drop x) with
                | .error e => rw [htl, exc_error_bind] at h; exact absurd h (by simp)
                | .ok tail =>
                  rw [htl, exc_ok_bind] at h
                  simp only [Except.ok.injEq] at h
                  exact ⟨db, children, tail, h.symm⟩
      · have hunf : resolveDescriptors t (fuel + 1) (⟨1, x, y⟩ :: rest) =
            (if rest.length < x then .error .fatal
             else do
               let children ← resolveDescriptors t fuel (rest.take x)
               let tail ← resolveDescriptors t fuel (rest.drop x)
               .ok (.repl y 0 children :: tail)) := by
          simp only [resolveDescriptors]
          rw [if_neg hy]
        rw [hunf] at h
        split at h
        · exact absurd h (by simp)
        · match hch : resolveDescriptors t fuel (rest.take x) with
          | .error e => rw [hch, exc_error_bind] at h; exact absurd h (by simp)
          | .ok children =>
            rw [hch, exc_ok_bind] at h
            match htl : resolveDescriptors t fuel (rest.drop x) with
            | .error e => rw [htl, exc_error_bind] at h; exact absurd h (by simp)
            | .ok tail =>
              rw [htl, exc_ok_bind] at h
              simp only [Except.ok.injEq] at h
              exact ⟨0, children, tail, h.symm⟩

/-- C8 (witness): the delayed replication `1-02-000` with marker
`(0,31,1)` over a two-descriptor span resolves to a structural
`Replication` node with `delayed_bits = 8`. -/
theorem c8_resolver_witness :
    delayedBitsOf ⟨0, 31, 1⟩ = .ok 8 ∧
    resolveDescriptors emptyTables 4 [⟨1, 2, 0⟩, ⟨0, 31, 1⟩, ⟨2, 1, 0⟩, ⟨2, 2, 0⟩] =
      .ok [.repl 0 8 [.op ⟨1, 0⟩, .op ⟨2, 0⟩]] ∧
    resolveDescriptors emptyTables 3 [⟨1, 3, 0⟩, ⟨0, 31, 1⟩, ⟨2, 1, 0⟩, ⟨2, 2, 0⟩] =
      .error .fatal := by
  refine ⟨c8_resolver.1.2.1, ?_, ?_⟩
  · have h := c8_resolver.2.2.2.1 emptyTables 3 2 ⟨0, 31, 1⟩ 8
      [⟨2, 1, 0⟩, ⟨2, 2, 0⟩] rfl (by simp)
    rw [h]
    rfl
  · exact c8_resolver.2.2.1 emptyTables 2 3 ⟨0, 31, 1⟩ 8 [⟨2, 1, 0⟩, ⟨2, 2, 0⟩] rfl (by simp)

/-- C10 (code bug).  `resolve_descriptors` is *not* total: when a delayed
replication descriptor (f = 1, y = 0) is the last element of the input,
the access to the following marker descriptor (`descriptors[pos]` after
`pos += 1`) is out of bounds and the Rust code panics instead of
returning an error, contradicting the resolver's own error convention
(the adjacent span bound check returns `Fatal`). -/
theorem c10_resolver_oob :
    resolveDescriptors emptyTables 5 [⟨1, 1, 0⟩] = .error .panicked := rfl

/-! ## C2 — non-compressed element decoding -/

/-- `do`-bind followed by `ok` is `Except.map`. -/
theorem exc_bind_pure_map {α β : Type} (d : Except Err α) (f : α → β) :
    (do let v ← d; (.ok (f v) : Except Err β)) = d.map f := by
  cases d <;> rfl

/-- `read_var` within range. -/
theorem readVar32_of_le {n : ℕ} (h : n ≤ 32) (s : BitSrc) :
    readVar32 n s = .ok (s.readUint n, s.advance n) := by
  unfold readVar32
  rw [if_neg (by omega)]

/-- Unfolding of the non-compressed numeric path of
`handle_data_descriptor`: read `B'` bits, run the missing/scale/reference
chain, wrap the value in a `Data` event. -/
theorem handleData_nc (sp : DataSpec) (ops : OpState) (idx : ℕ) (b : TableBEntry)
    (src : BitSrc) (hc : sp.isCompressed = false) (hw : effWidth ops b ≤ 32) :
    handleDataDescriptor sp ops idx b src =
      (decodeScalar (effWidth ops b) (effScale ops b) b.referenceValue
          (src.readUint (effWidth ops b))).map
        (fun v => (.data idx b.xy v, src.advance (effWidth ops b))) := by
  unfold handleDataDescriptor
  rw [if_pos hw, hc, if_neg (by simp), readVar32_of_le hw, exc_ok_bind]
  exact exc_bind_pure_map _ _

/-- C2 (amended).  In non-compressed mode, for an element with effective
width `B' ≤ 32`, effective scale `S'` and reference `R`, reading `B'` bits
as `v` yields `Missing` exactly on the all-ones pattern; otherwise, for
`S' = 0`, `Integer` of the 32-bit sum `v as i32 + R` — which equals the
64-bit sum narrowed to `i32` whenever it does not overflow, and panics
(debug build) when it does, contrary to the claim's "no 32-bit
overflow" — and for `S' ≠ 0` a `Decimal` whose mantissa is the 64-bit
sum `v + R` narrowed to `i32` and whose negated scale is `-S'`. -/
theorem c2_element_decode (sp : DataSpec) (ops : OpState) (idx : ℕ) (b : TableBEntry)
    (src : BitSrc) (hc : sp.isCompressed = false) (hw : effWidth ops b ≤ 32) :
    (src.readUint (effWidth ops b) = (2 ^ effWidth ops b - 1) % 2 ^ 32 →
      handleDataDescriptor sp ops idx b src =
        .ok (.data idx b.xy .missing, src.advance (effWidth ops b))) ∧
    (src.readUint (effWidth ops b) ≠ (2 ^ effWidth ops b - 1) % 2 ^ 32 →
      effScale ops b = 0 →
      -(2 ^ 31) ≤ wrapS 32 (src.readUint (effWidth ops b)) + b.referenceValue →
      wrapS 32 (src.readUint (effWidth ops b)) + b.referenceValue < 2 ^ 31 →
      handleDataDescriptor sp ops idx b src =
        .ok (.data idx b.xy
              (.integer (wrapS 32 (src.readUint (effWidth ops b)) + b.referenceValue)),
          src.advance (effWidth ops b)) ∧
      wrapS 32 (src.readUint (effWidth ops b)) + b.referenceValue =
        wrapS 32 ((src.readUint (effWidth ops b) : ℤ) + b.referenceValue)) ∧
    (src.readUint (effWidth ops b) ≠ (2 ^ effWidth ops b - 1) % 2 ^ 32 →
      effScale ops b = 0 →
      ¬ (-(2 ^ 31) ≤ wrapS 32 (src.readUint (effWidth ops b)) + b.referenceValue ∧
         wrapS 32 (src.readUint (effWidth ops b)) + b.referenceValue < 2 ^ 31) →
      handleDataDescriptor sp ops idx b src = .error .panicked) ∧
    (src.readUint (effWidth ops b) ≠ (2 ^ effWidth ops b - 1) % 2 ^ 32 →
      effScale ops b ≠ 0 →
      effScale ops b ≠ -(2 ^ 7) →
      handleDataDescriptor sp ops idx b src =
        .ok (.data idx b.xy
              (.decimal (wrapS 32 ((src.readUint (effWidth ops b) : ℤ) + b.referenceValue))
                (-(effScale ops b))),
          src.advance (effWidth ops b))) := by
  rw [handleData_nc sp ops idx b src hc hw]
  set B := effWidth ops b
  set S := effScale ops b
  set R := b.referenceValue
  set v := src.readUint B
  refine ⟨?_, ?_, ?_, ?_⟩
  · intro hmiss
    unfold decodeScalar
    rw [if_pos hmiss]
    rfl
  · intro hmiss hS h1 h2
    constructor
    · unfold decodeScalar
      rw [if_neg hmiss, if_pos hS]
      unfold i32Add
      rw [if_pos ⟨h1, h2⟩]
      rfl
    · unfold wrapS at h1 h2 ⊢
      omega
  · intro hmiss hS hrange
    unfold decodeScalar
    rw [if_neg hmiss, if_pos hS]
    unfold i32Add
    rw [if_neg hrange]
    rfl
  · intro hmiss hS hS8
    unfold decodeScalar
    rw [if_neg hmiss, if_neg hS]
    unfold i8Neg
    rw [if_neg hS8]
    rfl

/-- Non-compressed message header over one subset (no roots needed for the
element-decoding claims). -/
def spNC : DataSpec := ⟨1, false, []⟩

/-- A Table B entry of width 32, scale 0 and reference value 1. -/
def b32ref1 : TableBEntry := ⟨⟨0, 1⟩, 0, 1, 32⟩

/-- A bit source whose first 32 bits are `0111…1` (the value `2^31 - 1`,
not the all-ones missing marker). -/
def src31 : BitSrc := ⟨fun n => !(n % 32 == 0), 0⟩

/-- C2 (counterexample).  The claim asserts that in all non-missing cases
the sum `v + R` is computed with 64-bit intermediates — no 32-bit
overflow.  But the scale-0 path computes `v_raw as i32 + ref_value` in
32-bit arithmetic: with `B' = 32`, `v = 2^31 - 1` (not all-ones) and
`R = 1`, the addition overflows `i32` (a panic in a debug build) instead
of producing the narrowed 64-bit result `Integer(-2^31)` the claim
implies. -/
theorem c2_counterexample :
    evResult (handleDataDescriptor spNC OpState.init 0 b32ref1 src31) =
      .error .panicked := by decide

/-- An 8-bit, scale-0, reference-0 entry. -/
def b8s0 : TableBEntry := ⟨⟨1, 2⟩, 0, 0, 8⟩

/-- The all-zero bit source. -/
def src0 : BitSrc := ⟨fun _ => false, 0⟩

/-- C2 (witness): the amended theorem applied at the 8-bit entry on a zero
stream yields `Integer(0)`. -/
theorem c2_element_decode_witness :
    handleDataDescriptor spNC OpState.init 0 b8s0 src0 =
      .ok (.data 0 ⟨1, 2⟩ (.integer (wrapS 32 (BitSrc.readUint src0 8) + 0)),
        src0.advance 8) := by
  have h := (c2_element_decode spNC OpState.init 0 b8s0 src0 rfl (by decide)).2.1
    (by decide) (by decide) (by decide) (by decide)
  exact h.1

/-! ## C9 — the character-string path -/

/-- `read_to_vec` advances the bit position by exactly 8 bits per byte. -/
theorem readBytes_pos (n : ℕ) (s : BitSrc) :
    (readBytes n s).2.pos = s.pos + 8 * n := by
  induction n generalizing s with
  | zero => simp [readBytes]
  | succ n ih =>
    unfold readBytes
    simp only
    rcases hrb : readBytes n (s.advance 8) with ⟨rest, s'⟩
    have := ih (s.advance 8)
    rw [hrb] at this
    simp only [BitSrc.advance] at this ⊢
    omega

/-- Unfolding of the character path of `handle_data_descriptor`
(width above 32, multiple of 8): read the bytes, check all-0xFF *first*,
then UTF-8 validity, and only then the compressed-mode restriction. -/
theorem handleData_char (sp : DataSpec) (ops : OpState) (idx : ℕ) (b : TableBEntry)
    (src : BitSrc) (hw : ¬ effWidth ops b ≤ 32) (hm : effWidth ops b % 8 = 0) :
    handleDataDescriptor sp ops idx b src =
      (if (readBytes (effWidth ops b / 8) src).1.all (fun x => x = 255) then
        .ok (.data idx b.xy .missing, (readBytes (effWidth ops b / 8) src).2)
      else if utf8Valid (readBytes (effWidth ops b / 8) src).1 then
        if sp.isCompressed then .error .notSupported
        else .ok (.data idx b.xy (.string (readBytes (effWidth ops b / 8) src).1),
          (readBytes (effWidth ops b / 8) src).2)
      else .error .invalidData) := by
  unfold handleDataDescriptor
  rw [if_neg hw, if_pos hm]

/-- C9 (amended).  For effective width `B' > 32` that is a multiple of 8,
the decoder reads `B'/8` whole bytes (advancing by `B'` bits); an
all-0xFF buffer yields `Missing` — *also in compressed mode*, because
the missing check precedes the compressed restriction, contrary to the
claim; valid non-0xFF UTF-8 yields a `String` event in non-compressed
mode and a not-supported error in compressed mode; malformed UTF-8 is an
invalid-data error in both modes; any other width above 32 is an
invalid-data error. -/
theorem c9_char_decode (sp : DataSpec) (ops : OpState) (idx : ℕ) (b : TableBEntry)
    (src : BitSrc) :
    (32 < effWidth ops b → effWidth ops b % 8 = 0 →
      (((readBytes (effWidth ops b / 8) src).1.all (fun x => x = 255) = true →
         handleDataDescriptor sp ops idx b src =
           .ok (.data idx b.xy .missing, (readBytes (effWidth ops b / 8) src).2)) ∧
       ((readBytes (effWidth ops b / 8) src).1.all (fun x => x = 255) = false →
         utf8Valid (readBytes (effWidth ops b / 8) src).1 = true →
         sp.isCompressed = false →
         handleDataDescriptor sp ops idx b src =
           .ok (.data idx b.xy (.string (readBytes (effWidth ops b / 8) src).1),
             (readBytes (effWidth ops b / 8) src).2)) ∧
       ((readBytes (effWidth ops b / 8) src).1.all (fun x => x = 255) = false →
         utf8Valid (readBytes (effWidth ops b / 8) src).1 = false →
         handleDataDescriptor sp ops idx b src = .error .invalidData) ∧
       ((readBytes (effWidth ops b / 8) src).1.all (fun x => x = 255) = false →
         utf8Valid (readBytes (effWidth ops b / 8) src).1 = true →
         sp.isCompressed = true →
         handleDataDescriptor sp ops idx b src = .error .notSupported) ∧
       (readBytes (effWidth ops b / 8) src).2.pos = src.pos + effWidth ops b)) ∧
    (32 < effWidth ops b → effWidth ops b % 8 ≠ 0 →
      handleDataDescriptor sp ops idx b src = .error .invalidData) := by
  constructor
  · intro hw hm
    rw [handleData_char sp ops idx b src (by omega) hm]
    refine ⟨?_, ?_, ?_, ?_, ?_⟩
    · intro hff
      rw [if_pos hff]
    · intro hff hu hcomp
      rw [if_neg (by simp [hff]), if_pos hu, hcomp, if_neg (by simp)]
    · intro hff hu
      rw [if_neg (by simp [hff]), if_neg (by simp [hu])]
    · intro hff hu hcomp
      rw [if_neg (by simp [hff]), if_pos hu, hcomp, if_pos rfl]
    · rw [readBytes_pos]
      omega
  · intro hw hm
    unfold handleDataDescriptor
    rw [if_neg (by omega), if_neg hm]

/-- Compressed message header over two subsets. -/
def spC2 : DataSpec := ⟨2, true, []⟩

/-- A 40-bit (five-byte character string) entry. -/
def b40 : TableBEntry := ⟨⟨0, 2⟩, 0, 0, 40⟩

/-- The all-ones bit source: every byte reads 0xFF. -/
def srcFF : BitSrc := ⟨fun _ => true, 0⟩

/-- C9 (counterexample).  The claim says the character path in compressed
mode yields a not-supported error, but an all-0xFF five-byte field in
compressed mode decodes to a `Data … Missing` event: the missing check
runs before the compressed-character restriction. -/
theorem c9_counterexample :
    evResult (handleDataDescriptor spC2 OpState.init 0 b40 srcFF) =
      .ok (.data 0 ⟨0, 2⟩ .missing) := by decide

/-- A bit source delivering the byte `0x40` (`'@'`) forever. -/
def srcAt : BitSrc := ⟨fun n => n % 8 == 1, 0⟩

/-- C9 (witness): the amended theorem at a non-compressed five-byte field
of `'@'` bytes yields the `String` event, and at the all-0xFF compressed
field yields `Missing`. -/
theorem c9_char_decode_witness :
    handleDataDescriptor spNC OpState.init 0 b40 srcAt =
      .ok (.data 0 ⟨0, 2⟩ (.string [64, 64, 64, 64, 64]),
        (readBytes 5 srcAt).2) ∧
    handleDataDescriptor spC2 OpState.init 0 b40 srcFF =
      .ok (.data 0 ⟨0, 2⟩ .missing, (readBytes 5 srcFF).2) := by
  constructor
  · have h := ((c9_char_decode spNC OpState.init 0 b40 srcAt).1 (by decide)
      (by decide)).2.1 (by decide) (by decide) rfl
    rw [h]
    have hb : (readBytes (effWidth OpState.init b40 / 8) srcAt).1 =
        [64, 64, 64, 64, 64] := by decide
    rw [hb]
    rfl
  · have h := ((c9_char_decode spC2 OpState.init 0 b40 srcFF).1 (by decide)
      (by decide)).1 (by decide)
    rw [h]
    rfl

/-! ## C4 — compressed element decoding -/

/-- Advancing twice is advancing by the sum. -/
theorem advance_advance (s : BitSrc) (a b : ℕ) :
    (s.advance a).advance b = s.advance (a + b) := by
  simp [BitSrc.advance, Nat.add_assoc]

/-- Advancing by zero bits does not change the value read. -/
theorem readUint_advance_zero (s : BitSrc) (n : ℕ) :
    (s.advance 0).readUint n = s.readUint n := by
  simp [BitSrc.advance, BitSrc.readUint]

/-- The per-subset compressed loop returns one value per subset. -/
theorem readIncrements_length (bw : ℕ) (S R : ℤ) (lr nb : ℕ) :
    ∀ (n : ℕ) (s : BitSrc) (vs : List Value) (s' : BitSrc),
      readIncrements bw S R lr nb n s = .ok (vs, s') → vs.length = n := by
  intro n
  induction n with
  | zero =>
    intro s vs s' h
    simp only [readIncrements, Except.ok.injEq, Prod.mk.injEq] at h
    simp [← h.1]
  | succ n ih =>
    intro s vs s' h
    unfold readIncrements at h
    rcases hrv : readVar32 nb s with e | r1 <;> rw [hrv] at h
    · exact absurd h (by simp [exc_error_bind])
    · rw [exc_ok_bind] at h
      rcases hu : u32Add lr r1.1 with e | vr <;> rw [hu] at h
      · exact absurd h (by simp [exc_error_bind])
      · rw [exc_ok_bind] at h
        rcases hd : decodeScalar bw S R vr with e | v <;> rw [hd] at h
        · exact absurd h (by simp [exc_error_bind])
        · rw [exc_ok_bind] at h
          rcases hr : readIncrements bw S R lr nb n r1.2 with e | r2 <;> rw [hr] at h
          · exact absurd h (by simp [exc_error_bind])
          · rw [exc_ok_bind] at h
            simp only [Except.ok.injEq, Prod.mk.injEq] at h
            rw [← h.1]
            simp [ih r1.2 r2.1 r2.2 (by rw [hr])]

/-- Each value of the compressed loop comes from the increment read at
offset `i · nbinc` after the header, added to the local reference with a
checked `u32` addition, and run through the missing/scale/reference
chain. -/
theorem readIncrements_get (bw : ℕ) (S R : ℤ) (lr nb : ℕ) :
    ∀ (n : ℕ) (s : BitSrc) (vs : List Value) (s' : BitSrc),
      readIncrements bw S R lr nb n s = .ok (vs, s') →
      ∀ i, i < n →
        ∃ vi, vs[i]? = some vi ∧
          lr + (s.advance (i * nb)).readUint nb < 2 ^ 32 ∧
          decodeScalar bw S R (lr + (s.advance (i * nb)).readUint nb) = .ok vi := by
  intro n
  induction n with
  | zero => intro s vs s' h i hi; omega
  | succ n ih =>
    intro s vs s' h i hi
    unfold readIncrements at h
    rcases hrv : readVar32 nb s with e | r1 <;> rw [hrv] at h
    · exact absurd h (by simp [exc_error_bind])
    · rw [exc_ok_bind] at h
      rcases hu : u32Add lr r1.1 with e | vr <;> rw [hu] at h
      · exact absurd h (by simp [exc_error_bind])
      · rw [exc_ok_bind] at h
        rcases hd : decodeScalar bw S R vr with e | v <;> rw [hd] at h
        · exact absurd h (by simp [exc_error_bind])
        · rw [exc_ok_bind] at h
          rcases hr : readIncrements bw S R lr nb n r1.2 with e | r2 <;> rw [hr] at h
          · exact absurd h (by simp [exc_error_bind])
          · rw [exc_ok_bind] at h
            simp only [Except.ok.injEq, Prod.mk.injEq] at h
            obtain ⟨hvs, -⟩ := h
            have hnb : ¬ 32 < nb := by
              by_contra hgt
              rw [readVar32, if_pos hgt] at hrv
              exact absurd hrv (by simp)
            have hr1 : r1 = (s.readUint nb, s.advance nb) := by
              rw [readVar32, if_neg hnb] at hrv
              simp only [Except.ok.injEq] at hrv
              exact hrv.symm
            have hvr : vr = lr + r1.1 ∧ lr + r1.1 < 2 ^ 32 := by
              rw [u32Add] at hu
              split_ifs at hu with hlt
              simp only [Except.ok.injEq] at hu
              exact ⟨hu.symm, hlt⟩
            obtain ⟨hvr, hlt⟩ := hvr
            match i with
            | 0 =>
              refine ⟨v, ?_, ?_, ?_⟩
              · rw [← hvs]; simp
              · rw [Nat.zero_mul, readUint_advance_zero]
                rw [hr1] at hlt
                exact hlt
              · rw [Nat.zero_mul, readUint_advance_zero]
                rw [hr1] at hvr
                rw [← hvr]
                exact hd
            | i + 1 =>
              obtain ⟨vi, hget, hlt2, hdec⟩ := ih r1.2 r2.1 r2.2 (by rw [hr]) i (by omega)
              have hadv : r1.2.advance (i * nb) = s.advance ((i + 1) * nb) := by
                rw [hr1]
                show (s.advance nb).advance (i * nb) = s.advance ((i + 1) * nb)
                rw [advance_advance]
                congr 1
                ring
              refine ⟨vi, ?_, ?_, ?_⟩
              · rw [← hvs]
                simpa using hget
              · rw [hadv] at hlt2
                exact hlt2
              · rw [hadv] at hdec
                exact hdec

/-- Unfolding of the compressed numeric path of `handle_data_descriptor`:
a local reference of width `B'`, a 6-bit `nbinc`, then either one shared
value replicated over all subsets or the per-subset increment loop. -/
theorem handleData_comp (sp : DataSpec) (ops : OpState) (idx : ℕ) (b : TableBEntry)
    (src : BitSrc) (hcomp : sp.isCompressed = true) (hw : effWidth ops b ≤ 32) :
    handleDataDescriptor sp ops idx b src =
      (if (src.advance (effWidth ops b)).readUint 6 = 0 then do
        let v ← decodeScalar (effWidth ops b) (effScale ops b) b.referenceValue
          (src.readUint (effWidth ops b))
        .ok (.compressedData idx b.xy (List.replicate sp.numberOfSubsets v),
          (src.advance (effWidth ops b)).advance 6)
      else do
        let (values, src') ← readIncrements (effWidth ops b) (effScale ops b)
          b.referenceValue (src.readUint (effWidth ops b))
          ((src.advance (effWidth ops b)).readUint 6) sp.numberOfSubsets
          ((src.advance (effWidth ops b)).advance 6)
        .ok (.compressedData idx b.xy values, src')) := by
  unfold handleDataDescriptor
  rw [if_pos hw, hcomp, if_pos rfl, readVar32_of_le hw, exc_ok_bind,
    readVar32_of_le (by omega) (src.advance (effWidth ops b)), exc_ok_bind]

/-- C4.  In compressed mode, for an element of effective width `B' ≤ 32`:
the decoder reads a local reference of width `B'`, then a 6-bit `nbinc`;
if `nbinc = 0` it emits one value — computed from the local reference
alone by the missing/scale/reference chain (all-ones marker at width
`B'`) — replicated over all `N` subsets; otherwise it reads one
`nbinc`-bit increment per subset and decodes `localRef + inc` (a checked
`u32` sum) by the same chain; and every successfully emitted
`CompressedData.values` list has length exactly `N`. -/
theorem c4_compressed_decode (sp : DataSpec) (ops : OpState) (idx : ℕ) (b : TableBEntry)
    (src : BitSrc) (hcomp : sp.isCompressed = true) (hw : effWidth ops b ≤ 32)
    (localRef nbinc : ℕ) (src2 : BitSrc)
    (hlr : localRef = src.readUint (effWidth ops b))
    (hnb : nbinc = (src.advance (effWidth ops b)).readUint 6)
    (hs2 : src2 = (src.advance (effWidth ops b)).advance 6) :
    (∀ ev src', handleDataDescriptor sp ops idx b src = .ok (ev, src') →
      ∃ values, ev = .compressedData idx b.xy values ∧
        values.length = sp.numberOfSubsets) ∧
    (nbinc = 0 → ∀ v,
      decodeScalar (effWidth ops b) (effScale ops b) b.referenceValue localRef = .ok v →
      handleDataDescriptor sp ops idx b src =
        .ok (.compressedData idx b.xy (List.replicate sp.numberOfSubsets v), src2)) ∧
    (nbinc ≠ 0 → ∀ values src',
      handleDataDescriptor sp ops idx b src = .ok (.compressedData idx b.xy values, src') →
      ∀ i, i < sp.numberOfSubsets →
        ∃ vi, values[i]? = some vi ∧
          localRef + (src2.advance (i * nbinc)).readUint nbinc < 2 ^ 32 ∧
          decodeScalar (effWidth ops b) (effScale ops b) b.referenceValue
            (localRef + (src2.advance (i * nbinc)).readUint nbinc) = .ok vi) := by
  subst hlr hnb hs2
  rw [handleData_comp sp ops idx b src hcomp hw]
  refine ⟨?_, ?_, ?_⟩
  · intro ev src' h
    split_ifs at h with h0
    · rcases hd : decodeScalar (effWidth ops b) (effScale ops b) b.referenceValue
          (src.readUint (effWidth ops b)) with e | v <;> rw [hd] at h
      · exact absurd h (by simp [exc_error_bind])
      · rw [exc_ok_bind] at h
        simp only [Except.ok.injEq, Prod.mk.injEq] at h
        exact ⟨List.replicate sp.numberOfSubsets v, h.1.symm, by simp⟩
    · rcases hr : readIncrements (effWidth ops b) (effScale ops b) b.referenceValue
          (src.readUint (effWidth ops b)) ((src.advance (effWidth ops b)).readUint 6)
          sp.numberOfSubsets ((src.advance (effWidth ops b)).advance 6) with e | ⟨values, s2⟩ <;>
        rw [hr] at h
      · exact absurd h (by simp [exc_error_bind])
      · rw [exc_ok_bind] at h
        simp only [Except.ok.injEq, Prod.mk.injEq] at h
        exact ⟨values, h.1.symm,
          readIncrements_length _ _ _ _ _ sp.numberOfSubsets _ values s2 hr⟩
  · intro h0 v hd
    rw [if_pos h0, hd, exc_ok_bind]
  · intro h0 values src' h i hi
    rw [if_neg h0] at h
    rcases hr : readIncrements (effWidth ops b) (effScale ops b) b.referenceValue
        (src.readUint (effWidth ops b)) ((src.advance (effWidth ops b)).readUint 6)
        sp.numberOfSubsets ((src.advance (effWidth ops b)).advance 6) with e | ⟨values2, s2⟩ <;>
      rw [hr] at h
    · exact absurd h (by simp [exc_error_bind])
    · rw [exc_ok_bind] at h
      simp only [Except.ok.injEq, Prod.mk.injEq, Event.compressedData.injEq] at h
      obtain ⟨⟨-, -, hv⟩, -⟩ := h
      rw [← hv] at *
      exact readIncrements_get _ _ _ _ _ sp.numberOfSubsets _ values2 s2 hr i hi

/-- The payload of scenario A5 of the spec: an 8-bit local reference 0,
`nbinc = 3` (bits 12 and 13 set), increments `0b001` and `0b010` (bits 16
and 18). -/
def srcA5 : BitSrc := ⟨fun n => n == 12 || n == 13 || n == 16 || n == 18, 0⟩

/-- C4 (witness): the A5 scenario — width 8, two subsets, local
reference 0, nbinc 3, increments 1 and 2 — produces
`CompressedData [Integer 1, Integer 2]`, and the claim theorem certifies
the length equals the subset count. -/
theorem c4_compressed_decode_witness :
    evResult (handleDataDescriptor spC2 OpState.init 0 b8s0 srcA5) =
      .ok (.compressedData 0 ⟨1, 2⟩ [.integer 1, .integer 2]) ∧
    ([.integer 1, .integer 2] : List Value).length = spC2.numberOfSubsets := by
  refine ⟨by decide, ?_⟩
  have hev : evResult (handleDataDescriptor spC2 OpState.init 0 b8s0 srcA5) =
      .ok (.compressedData 0 ⟨1, 2⟩ [.integer 1, .integer 2]) := by decide
  rcases hh : handleDataDescriptor spC2 OpState.init 0 b8s0 srcA5 with e | ⟨ev, src'⟩
  · rw [hh] at hev
    exact absurd hev (by simp [evResult, Except.map])
  · rw [hh] at hev
    simp only [evResult, Except.map, Except.ok.injEq] at hev
    obtain ⟨values, hval, hlen⟩ :=
      (c4_compressed_decode spC2 OpState.init 0 b8s0 srcA5 rfl (by decide)
        _ _ _ rfl rfl rfl).1 ev src' hh
    rw [hev, show b8s0.xy = (⟨1, 2⟩ : XY) from rfl] at hval
    simp only [Event.compressedData.injEq] at hval
    rw [hval.2.2]
    exact hlen

/-! ## C7 — operator semantics -/

/-- A successful operator step always reports an `OperatorHandled` event
carrying the operator's x and y. -/
theorem handleOperator_ok_event (idx : ℕ) (xy : XY) (ops : OpState)
    (r : Event × OpState) (h : handleOperatorDescriptor idx xy ops = .ok r) :
    r.1 = .operatorHandled idx xy.x (xy.y : ℤ) := by
  unfold handleOperatorDescriptor at h
  split_ifs at h <;> simp only [Except.ok.injEq] at h <;> rw [← h]

/-- The descriptor-dispatch step changes the operator state only through
the operator handler (which reports an `OperatorHandled` event). -/
theorem stepDescriptor_ops_aux (sp : DataSpec) (s : MState) (top : Frame)
    (rest : List Frame) (d : RDesc) (e : Event) (s' : MState)
    (h : stepDescriptor sp s top rest d = .ok (e, s'))
    (hnotop : ∀ (i x : ℕ) (v : ℤ), e ≠ .operatorHandled i x v) :
    s'.ops = s.ops := by
  obtain ⟨ty, ds, nx⟩ := top
  match d with
  | .data b =>
    simp only [stepDescriptor] at h
    rcases hh : handleDataDescriptor sp s.ops nx b s.src with er | r <;> rw [hh] at h
    · exact absurd h (by simp [exc_error_bind])
    · rw [exc_ok_bind] at h
      simp only [Except.ok.injEq, Prod.mk.injEq] at h
      rw [← h.2]
  | .op xy =>
    simp only [stepDescriptor] at h
    rcases hh : handleOperatorDescriptor nx xy s.ops with er | r <;> rw [hh] at h
    · exact absurd h (by simp [exc_error_bind])
    · rw [exc_ok_bind] at h
      simp only [Except.ok.injEq, Prod.mk.injEq] at h
      exact absurd (by rw [← h.1]; exact handleOperator_ok_event _ _ _ r hh)
        (hnotop nx xy.x (xy.y : ℤ))
  | .seq xy children =>
    simp only [stepDescriptor] at h
    simp only [Except.ok.injEq, Prod.mk.injEq] at h
    rw [← h.2]
  | .repl y db children =>
    simp only [stepDescriptor] at h
    split at h
    · rcases hrv : readVar16 db s.src with er | rc <;> rw [hrv] at h
      · exact absurd h (by simp [exc_error_bind])
      · rw [exc_ok_bind] at h
        simp only [Except.ok.injEq, Prod.mk.injEq] at h
        obtain ⟨-, hs⟩ := h
        subst hs
        rfl
    · rw [exc_ok_bind] at h
      simp only [Except.ok.injEq, Prod.mk.injEq] at h
      obtain ⟨-, hs⟩ := h
      subst hs
      rfl

/-- C7.  The (2,y) operator with `y ≠ 0` sets `scale_offset := y - 128`
(so `Operator(2,130)` sets it to 2, making a scale-0 element decode as
`Decimal(v, -2)`), `(2,0)` resets it; `(1,y)`/`(1,0)` do the same for
`width_offset`; both offsets — indeed the whole operator state — are left
untouched by every non-operator event, so they persist across Data
children and across sequence entry and exit; and an operator with
`x ∉ {1, 2, 6}` is a not-supported error. -/
theorem c7_operator_state (idx : ℕ) (ops : OpState) :
    (∀ y : ℕ, y ≠ 0 →
      handleOperatorDescriptor idx ⟨2, y⟩ ops =
        .ok (.operatorHandled idx 2 (y : ℤ), { ops with scaleOffset := (y : ℤ) - 128 })) ∧
    (handleOperatorDescriptor idx ⟨2, 0⟩ ops =
      .ok (.operatorHandled idx 2 0, { ops with scaleOffset := 0 })) ∧
    (∀ y : ℕ, y ≠ 0 →
      handleOperatorDescriptor idx ⟨1, y⟩ ops =
        .ok (.operatorHandled idx 1 (y : ℤ), { ops with widthOffset := (y : ℤ) - 128 })) ∧
    (handleOperatorDescriptor idx ⟨1, 0⟩ ops =
      .ok (.operatorHandled idx 1 0, { ops with widthOffset := 0 })) ∧
    (∀ (sp : DataSpec) (b : TableBEntry) (src : BitSrc),
      sp.isCompressed = false → b.scale = 0 → ops.scaleOffset = 2 →
      effWidth ops b ≤ 32 →
      src.readUint (effWidth ops b) ≠ (2 ^ effWidth ops b - 1) % 2 ^ 32 →
      handleDataDescriptor sp ops idx b src =
        .ok (.data idx b.xy
              (.decimal (wrapS 32 ((src.readUint (effWidth ops b) : ℤ) + b.referenceValue))
                (-2)),
          src.advance (effWidth ops b))) ∧
    (∀ (sp : DataSpec) (s : MState) (e : Event) (s' : MState),
      readEvent sp s = .ok (e, s') →
      (∀ (i x : ℕ) (v : ℤ), e ≠ .operatorHandled i x v) →
      s'.ops = s.ops) ∧
    (∀ xy : XY, xy.x ≠ 1 → xy.x ≠ 2 → xy.x ≠ 6 →
      handleOperatorDescriptor idx xy ops = .error .notSupported) := by
  refine ⟨?_, ?_, ?_, ?_, ?_, ?_, ?_⟩
  · intro y hy
    unfold handleOperatorDescriptor
    rw [if_neg (by simp), if_pos rfl, if_neg (by simpa using hy)]
  · unfold handleOperatorDescriptor
    rw [if_neg (by simp), if_pos rfl, if_pos rfl]
    rfl
  · intro y hy
    unfold handleOperatorDescriptor
    rw [if_pos rfl, if_neg (by simpa using hy)]
  · unfold handleOperatorDescriptor
    rw [if_pos rfl, if_pos rfl]
    rfl
  · intro sp b src hc hb hso hw hv
    have hS : effScale ops b = 2 := by
      unfold effScale
      rw [hb, hso]
      decide
    rw [handleData_nc sp ops idx b src hc hw]
    unfold decodeScalar
    rw [if_neg hv, hS, if_neg (by norm_num)]
    rfl
  · intro sp s e s' h hnotop
    unfold readEvent at h
    split at h
    · split_ifs at h <;> simp only [Except.ok.injEq, Prod.mk.injEq] at h <;>
        (obtain ⟨-, hs⟩ := h; subst hs; rfl)
    · unfold processTop at h
      split at h
      · split at h
        · split at h
          · simp only [Except.ok.injEq, Prod.mk.injEq] at h
            obtain ⟨-, hs⟩ := h
            subst hs
            rfl
          · split at h <;> simp only [Except.ok.injEq, Prod.mk.injEq] at h <;>
              (obtain ⟨-, hs⟩ := h; subst hs; rfl)
        · split at h
          · exact stepDescriptor_ops_aux sp s _ _ _ e s' h hnotop
          · exact absurd h (by simp)
      · split at h
        · split at h <;> simp only [Except.ok.injEq, Prod.mk.injEq] at h <;>
            (obtain ⟨-, hs⟩ := h; subst hs; rfl)
        · split at h
          · exact stepDescriptor_ops_aux sp s _ _ _ e s' h hnotop
          · exact absurd h (by simp)
  · intro xy h1 h2 h6
    unfold handleOperatorDescriptor
    rw [if_neg h1, if_neg h2, if_neg h6]

/-- A bit source delivering the byte 5 (`00000101`). -/
def src5 : BitSrc := ⟨fun n => n == 5 || n == 7, 0⟩

/-- C7 (witness): `Operator(2,130)` sets `scale_offset` to `130 - 128 = 2`
and, with that offset in force, the scale-0 8-bit element decodes as
`Decimal(5, -2)`; `Operator(2,0)` resets the offset; `Operator(0,0)` is
not supported. -/
theorem c7_operator_state_witness :
    handleOperatorDescriptor 0 ⟨2, 130⟩ OpState.init =
      .ok (.operatorHandled 0 2 (130 : ℕ), { OpState.init with scaleOffset := (130 : ℕ) - 128 }) ∧
    handleOperatorDescriptor 0 ⟨2, 0⟩ OpState.init =
      .ok (.operatorHandled 0 2 0, { OpState.init with scaleOffset := 0 }) ∧
    handleDataDescriptor spNC ⟨0, 2, none⟩ 0 b8s0 src5 =
      .ok (.data 0 ⟨1, 2⟩
            (.decimal (wrapS 32 ((src5.readUint (effWidth ⟨0, 2, none⟩ b8s0) : ℤ) +
              b8s0.referenceValue)) (-2)),
        src5.advance (effWidth ⟨0, 2, none⟩ b8s0)) ∧
    handleOperatorDescriptor 0 ⟨0, 0⟩ OpState.init = .error .notSupported := by
  refine ⟨(c7_operator_state 0 OpState.init).1 130 (by decide),
    (c7_operator_state 0 OpState.init).2.1,
    (c7_operator_state 0 ⟨0, 2, none⟩).2.2.2.2.1 spNC b8s0 src5 rfl rfl rfl
      (by decide) (by decide),
    (c7_operator_state 0 OpState.init).2.2.2.2.2.2 ⟨0, 0⟩ (by decide) (by decide) (by decide)⟩

/-! ## C3 / C6 — the event grammar

The machine (`readEvent`) is proved to emit exactly the event sequences
of the spec grammar (`specWalkList` and friends).  The proof is a
simulation: `StepsTo` chains of machine steps are built by induction on
the fuel of the grammar walk. -/

/-- `StepsTo` composes. -/
theorem StepsTo.append {sp : DataSpec} {s₁ : MState} {e1 : List Event} {s₂ : MState}
    {e2 : List Event} {s₃ : MState}
    (h1 : StepsTo sp s₁ e1 s₂) (h2 : StepsTo sp s₂ e2 s₃) :
    StepsTo sp s₁ (e1 ++ e2) s₃ := by
  induction h1 with
  | refl s => simpa using h2
  | step hr hne _ ih => exact .step hr hne (ih h2)

/-- A single machine step as a `StepsTo` chain. -/
theorem StepsTo.single {sp : DataSpec} {s : MState} {e : Event} {s' : MState}
    (h : readEvent sp s = .ok (e, s')) (hne : e ≠ .eof) :
    StepsTo sp s [e] s' := .step h hne (.refl s')

/-- Dispatching: with the cursor on a child, `read_event` runs the
descriptor dispatch. -/
theorem readEvent_dispatch (sp : DataSpec) (si : ℕ) (src : BitSrc) (ty : FrameTy)
    (ds : List RDesc) (nx : ℕ) (stack0 : List Frame) (ops : OpState) (d : RDesc)
    (h : ds[nx]? = some d) :
    readEvent sp ⟨si, src, ⟨ty, ds, nx⟩ :: stack0, ops⟩ =
      stepDescriptor sp ⟨si, src, ⟨ty, ds, nx⟩ :: stack0, ops⟩ ⟨ty, ds, nx⟩ stack0 d := by
  have hlen : nx < ds.length := (List.getElem?_eq_some.mp h).1
  show processTop sp _ ⟨ty, ds, nx⟩ stack0 = _
  cases ty with
  | sequence =>
    simp only [processTop]
    rw [if_neg (by omega), h]
  | replication rem inItem =>
    simp only [processTop]
    rw [if_neg (by omega), h]

/-- Step result on a `Data` child. -/
theorem stepDescriptor_data (sp : DataSpec) (s : MState) (ty : FrameTy)
    (ds : List RDesc) (nx : ℕ) (rest : List Frame) (b : TableBEntry) (r : Event × BitSrc)
    (h : handleDataDescriptor sp s.ops nx b s.src = .ok r) :
    stepDescriptor sp s ⟨ty, ds, nx⟩ rest (.data b) =
      .ok (r.1,
        { s with src := r.2, stack := ⟨ty, ds, nx + 1⟩ :: rest }) := by
  simp only [stepDescriptor]
  rw [h, exc_ok_bind]

/-- Step result on an `Operator` child. -/
theorem stepDescriptor_op (sp : DataSpec) (s : MState) (ty : FrameTy)
    (ds : List RDesc) (nx : ℕ) (rest : List Frame) (xy : XY) (r : Event × OpState)
    (h : handleOperatorDescriptor nx xy s.ops = .ok r) :
    stepDescriptor sp s ⟨ty, ds, nx⟩ rest (.op xy) =
      .ok (r.1,
        { s with ops := r.2, stack := ⟨ty, ds, nx + 1⟩ :: rest }) := by
  simp only [stepDescriptor]
  rw [h, exc_ok_bind]

/-- Step result on a `Sequence` child. -/
theorem stepDescriptor_seq (sp : DataSpec) (s : MState) (ty : FrameTy)
    (ds : List RDesc) (nx : ℕ) (rest : List Frame) (xy : XY) (children : List RDesc) :
    stepDescriptor sp s ⟨ty, ds, nx⟩ rest (.seq xy children) =
      .ok (.sequenceStart nx xy,
        { s with stack := ⟨.sequence, children, 0⟩ :: ⟨ty, ds, nx + 1⟩ :: rest }) := by
  simp only [stepDescriptor]

/-- Step result on a delayed `Replication` child: the count comes from the
bit stream at entry. -/
theorem stepDescriptor_repl0 (sp : DataSpec) (s : MState) (ty : FrameTy)
    (ds : List RDesc) (nx : ℕ) (rest : List Frame) (db : ℕ) (children : List RDesc)
    (rc : ℕ × BitSrc) (h : readVar16 db s.src = .ok rc) :
    stepDescriptor sp s ⟨ty, ds, nx⟩ rest (.repl 0 db children) =
      .ok (.replicationStart nx rc.1,
        { s with src := rc.2,
                 stack := ⟨.replication rc.1 false, children, children.length⟩ ::
                   ⟨ty, ds, nx + 1⟩ :: rest }) := by
  simp only [stepDescriptor, if_true]
  rw [h, exc_ok_bind]

/-- Step result on a literal-count `Replication` child. -/
theorem stepDescriptor_replN (sp : DataSpec) (s : MState) (ty : FrameTy)
    (ds : List RDesc) (nx : ℕ) (rest : List Frame) (y db : ℕ) (children : List RDesc)
    (hy : y ≠ 0) :
    stepDescriptor sp s ⟨ty, ds, nx⟩ rest (.repl y db children) =
      .ok (.replicationStart nx y,
        { s with src := s.src,
                 stack := ⟨.replication y false, children, children.length⟩ ::
                   ⟨ty, ds, nx + 1⟩ :: rest }) := by
  simp only [stepDescriptor]
  rw [if_neg hy, exc_ok_bind]

/-- Popping an exhausted sequence frame over a non-empty stack emits
`SequenceEnd`. -/
theorem readEvent_seq_end (sp : DataSpec) (si : ℕ) (src : BitSrc) (ds : List RDesc)
    (nx : ℕ) (f : Frame) (stack0 : List Frame) (ops : OpState)
    (hlen : ds.length ≤ nx) :
    readEvent sp ⟨si, src, ⟨.sequence, ds, nx⟩ :: (f :: stack0), ops⟩ =
      .ok (.sequenceEnd, ⟨si, src, f :: stack0, ops⟩) := by
  show processTop sp _ ⟨.sequence, ds, nx⟩ (f :: stack0) = _
  simp only [processTop]
  rw [if_pos hlen]

/-- Popping the root frame in non-compressed mode emits `SubsetEnd`. -/
theorem readEvent_subset_end (sp : DataSpec) (si : ℕ) (src : BitSrc) (ds : List RDesc)
    (nx : ℕ) (ops : OpState) (hlen : ds.length ≤ nx)
    (hcomp : sp.isCompressed = false) :
    readEvent sp ⟨si, src, [⟨.sequence, ds, nx⟩], ops⟩ =
      .ok (.subsetEnd, ⟨si, src, [], ops⟩) := by
  show processTop sp _ ⟨.sequence, ds, nx⟩ [] = _
  simp only [processTop]
  rw [if_pos hlen, hcomp]

/-- Popping the root frame in compressed mode emits `Eof`. -/
theorem readEvent_comp_eof (sp : DataSpec) (si : ℕ) (src : BitSrc) (ds : List RDesc)
    (nx : ℕ) (ops : OpState) (hlen : ds.length ≤ nx)
    (hcomp : sp.isCompressed = true) :
    readEvent sp ⟨si, src, [⟨.sequence, ds, nx⟩], ops⟩ =
      .ok (.eof, ⟨si, src, [], ops⟩) := by
  show processTop sp _ ⟨.sequence, ds, nx⟩ [] = _
  simp only [processTop]
  rw [if_pos hlen, hcomp]

/-- Finishing a replication item emits `ReplicationItemEnd`. -/
theorem readEvent_item_end (sp : DataSpec) (si : ℕ) (src : BitSrc) (rem : ℕ)
    (ds : List RDesc) (nx : ℕ) (stack0 : List Frame) (ops : OpState)
    (hlen : ds.length ≤ nx) :
    readEvent sp ⟨si, src, ⟨.replication rem true, ds, nx⟩ :: stack0, ops⟩ =
      .ok (.replicationItemEnd,
        ⟨si, src, ⟨.replication rem false, ds, nx⟩ :: stack0, ops⟩) := by
  show processTop sp _ ⟨.replication rem true, ds, nx⟩ stack0 = _
  simp only [processTop]
  rw [if_pos hlen]
  rfl

/-- Starting the next replication item emits `ReplicationItemStart` and
rewinds the cursor. -/
theorem readEvent_item_start (sp : DataSpec) (si : ℕ) (src : BitSrc) (k : ℕ)
    (ds : List RDesc) (nx : ℕ) (stack0 : List Frame) (ops : OpState)
    (hlen : ds.length ≤ nx) :
    readEvent sp ⟨si, src, ⟨.replication (k + 1) false, ds, nx⟩ :: stack0, ops⟩ =
      .ok (.replicationItemStart,
        ⟨si, src, ⟨.replication k true, ds, 0⟩ :: stack0, ops⟩) := by
  show processTop sp _ ⟨.replication (k + 1) false, ds, nx⟩ stack0 = _
  simp only [processTop]
  rw [if_pos hlen]
  rfl

/-- An exhausted replication frame emits `ReplicationEnd` and pops. -/
theorem readEvent_repl_end (sp : DataSpec) (si : ℕ) (src : BitSrc)
    (ds : List RDesc) (nx : ℕ) (stack0 : List Frame) (ops : OpState)
    (hlen : ds.length ≤ nx) :
    readEvent sp ⟨si, src, ⟨.replication 0 false, ds, nx⟩ :: stack0, ops⟩ =
      .ok (.replicationEnd, ⟨si, src, stack0, ops⟩) := by
  show processTop sp _ ⟨.replication 0 false, ds, nx⟩ stack0 = _
  simp only [processTop]
  rw [if_pos hlen]
  rfl

/-- With an empty stack in non-compressed mode, a remaining subset opens. -/
theorem readEvent_subset_start (sp : DataSpec) (si : ℕ) (src : BitSrc) (ops : OpState)
    (hcomp : sp.isCompressed = false) (hlt : si ≠ sp.numberOfSubsets) :
    readEvent sp ⟨si, src, [], ops⟩ =
      .ok (.subsetStart si,
        ⟨si + 1, src, [⟨.sequence, sp.rootDescriptors, 0⟩], ops⟩) := by
  unfold readEvent
  rw [hcomp]
  simp only [Bool.false_eq_true, if_false, if_neg hlt]

/-- With an empty stack and all subsets done, `Eof` repeats. -/
theorem readEvent_nc_eof (sp : DataSpec) (si : ℕ) (src : BitSrc) (ops : OpState)
    (hcomp : sp.isCompressed = false) (heq : si = sp.numberOfSubsets) :
    readEvent sp ⟨si, src, [], ops⟩ = .ok (.eof, ⟨si, src, [], ops⟩) := by
  unfold readEvent
  rw [hcomp]
  simp only [Bool.false_eq_true, if_false, if_pos heq]

/-- With an empty stack in compressed mode, the single pass opens. -/
theorem readEvent_comp_start (sp : DataSpec) (src : BitSrc) (ops : OpState)
    (hcomp : sp.isCompressed = true) :
    readEvent sp ⟨0, src, [], ops⟩ =
      .ok (.compressedStart,
        ⟨1, src, [⟨.sequence, sp.rootDescriptors, 0⟩], ops⟩) := by
  unfold readEvent
  rw [hcomp]
  simp

/-- A successful data step never reports `Eof`: the emitted event is a
`Data` or `CompressedData` event. -/
theorem handleData_ok_ne_eof (sp : DataSpec) (ops : OpState) (idx : ℕ)
    (b : TableBEntry) (src : BitSrc) (r : Event × BitSrc)
    (h : handleDataDescriptor sp ops idx b src = .ok r) : r.1 ≠ .eof := by
  by_cases hw : effWidth ops b ≤ 32
  · match hc : sp.isCompressed with
    | true =>
      rw [handleData_comp sp ops idx b src hc hw] at h
      split_ifs at h
      · rcases hd : decodeScalar (effWidth ops b) (effScale ops b) b.referenceValue
            (src.readUint (effWidth ops b)) with er | v <;> rw [hd] at h
        · exact absurd h (by simp [exc_error_bind])
        · rw [exc_ok_bind] at h
          simp only [Except.ok.injEq] at h
          rw [← h]
          simp
      · rcases hr : readIncrements (effWidth ops b) (effScale ops b) b.referenceValue
            (src.readUint (effWidth ops b)) ((src.advance (effWidth ops b)).readUint 6)
            sp.numberOfSubsets ((src.advance (effWidth ops b)).advance 6) with er | rr <;>
          rw [hr] at h
        · exact absurd h (by simp [exc_error_bind])
        · rw [exc_ok_bind] at h
          simp only [Except.ok.injEq] at h
          rw [← h]
          simp
    | false =>
      rw [handleData_nc sp ops idx b src hc hw] at h
      rcases hd : decodeScalar (effWidth ops b) (effScale ops b) b.referenceValue
          (src.readUint (effWidth ops b)) with er | v <;> rw [hd] at h
      · exact absurd h (by simp [Except.map])
      · simp only [Except.map, Except.ok.injEq] at h
        rw [← h]
        simp
  · by_cases hm : effWidth ops b % 8 = 0
    · rw [handleData_char sp ops idx b src hw hm] at h
      split_ifs at h <;> (simp only [Except.ok.injEq] at h; rw [← h]; simp)
    · unfold handleDataDescriptor at h
      rw [if_neg hw, if_neg hm] at h
      exact absurd h (by simp)

/-- The element after the cursor, read off a `drop` equation. -/
theorem getElem?_of_drop {ds : List RDesc} {i : ℕ} {d : RDesc} {t : List RDesc}
    (h : ds.drop i = d :: t) : ds[i]? = some d := by
  have h0 : (ds.drop i)[0]? = some d := by rw [h]; simp
  rw [List.getElem?_drop] at h0
  simpa using h0

/-- The tail after the cursor, read off a `drop` equation. -/
theorem drop_succ_of_drop {ds : List RDesc} {i : ℕ} {d : RDesc} {t : List RDesc}
    (h : ds.drop i = d :: t) : ds.drop (i + 1) = t := by
  have : ds.drop (i + 1) = (ds.drop i).drop 1 := by
    rw [List.drop_drop, Nat.add_comm]
  rw [this, h]
  rfl

/-- The simulation: reading events from the machine reproduces, step by
step, the event lists of the spec grammar — for the walk of a remaining
child list, for a single child, and for the iterations of a replication
frame. -/
theorem simMaster (sp : DataSpec) : ∀ fuel : ℕ,
    (∀ (st : DState) (i : ℕ) (l : List RDesc) (evs : List Event) (st' : DState),
      specWalkList sp fuel st i l = .ok (evs, st') →
      ∀ ds : List RDesc, ds.drop i = l →
      ∀ (ty : FrameTy) (stack0 : List Frame) (si : ℕ),
        StepsTo sp ⟨si, st.src, ⟨ty, ds, i⟩ :: stack0, st.ops⟩ evs
          ⟨si, st'.src, ⟨ty, ds, i + l.length⟩ :: stack0, st'.ops⟩) ∧
    (∀ (st : DState) (i : ℕ) (d : RDesc) (evs : List Event) (st' : DState),
      specWalkDesc sp fuel st i d = .ok (evs, st') →
      ∀ (ds t : List RDesc), ds.drop i = d :: t →
      ∀ (ty : FrameTy) (stack0 : List Frame) (si : ℕ),
        StepsTo sp ⟨si, st.src, ⟨ty, ds, i⟩ :: stack0, st.ops⟩ evs
          ⟨si, st'.src, ⟨ty, ds, i + 1⟩ :: stack0, st'.ops⟩) ∧
    (∀ (st : DState) (ch : List RDesc) (k : ℕ) (evs : List Event) (st' : DState),
      specReplItems sp fuel st ch k = .ok (evs, st') →
      ∀ (stack0 : List Frame) (si : ℕ),
        StepsTo sp ⟨si, st.src, ⟨.replication k false, ch, ch.length⟩ :: stack0, st.ops⟩
          (evs ++ [.replicationEnd]) ⟨si, st'.src, stack0, st'.ops⟩) := by
  intro fuel
  induction fuel with
  | zero =>
    refine ⟨?_, ?_, ?_⟩ <;> intro st _ _ _ _ h <;>
      exact absurd h (by simp [specWalkList, specWalkDesc, specReplItems])
  | succ fuel ih =>
    obtain ⟨ihL, ihD, ihR⟩ := ih
    refine ⟨?_, ?_, ?_⟩
    · -- walk of a child list
      intro st i l evs st' h ds hdrop ty stack0 si
      match l with
      | [] =>
        simp only [specWalkList, Except.ok.injEq, Prod.mk.injEq] at h
        obtain ⟨hevs, hst⟩ := h
        subst hevs
        subst hst
        simpa using StepsTo.refl _
      | d :: t =>
        simp only [specWalkList] at h
        rcases h1 : specWalkDesc sp fuel st i d with er | r1 <;> rw [h1] at h
        · exact absurd h (by simp [exc_error_bind])
        rw [exc_ok_bind] at h
        rcases h2 : specWalkList sp fuel r1.2 (i + 1) t with er | r2 <;> rw [h2] at h
        · exact absurd h (by simp [exc_error_bind])
        rw [exc_ok_bind] at h
        simp only [Except.ok.injEq, Prod.mk.injEq] at h
        obtain ⟨hevs, hst⟩ := h
        subst hevs
        subst hst
        have hd := ihD st i d r1.1 r1.2 (by rw [h1]) ds t hdrop ty stack0 si
        have hl := ihL r1.2 (i + 1) t r2.1 r2.2 (by rw [h2]) ds
          (drop_succ_of_drop hdrop) ty stack0 si
        have hcur : i + 1 + t.length = i + (d :: t).length := by
          simp [List.length_cons]
          omega
        rw [hcur] at hl
        exact hd.append hl
    · -- walk of one child
      intro st i d evs st' h ds t hdrop ty stack0 si
      have hget : ds[i]? = some d := getElem?_of_drop hdrop
      match d with
      | .data b =>
        simp only [specWalkDesc] at h
        rcases hh : handleDataDescriptor sp st.ops i b st.src with er | r <;> rw [hh] at h
        · exact absurd h (by simp [exc_error_bind])
        rw [exc_ok_bind] at h
        simp only [Except.ok.injEq, Prod.mk.injEq] at h
        obtain ⟨hevs, hst⟩ := h
        subst hevs
        subst hst
        refine StepsTo.single ?_ (handleData_ok_ne_eof sp st.ops i b st.src r hh)
        rw [readEvent_dispatch sp si st.src ty ds i stack0 st.ops _ hget]
        exact stepDescriptor_data sp _ ty ds i stack0 b r hh
      | .op xy =>
        simp only [specWalkDesc] at h
        rcases hh : handleOperatorDescriptor i xy st.ops with er | r <;> rw [hh] at h
        · exact absurd h (by simp [exc_error_bind])
        rw [exc_ok_bind] at h
        simp only [Except.ok.injEq, Prod.mk.injEq] at h
        obtain ⟨hevs, hst⟩ := h
        subst hevs
        subst hst
        refine StepsTo.single ?_
          (by rw [handleOperator_ok_event i xy st.ops r hh]; simp)
        rw [readEvent_dispatch sp si st.src ty ds i stack0 st.ops _ hget]
        exact stepDescriptor_op sp _ ty ds i stack0 xy r hh
      | .seq xy children =>
        simp only [specWalkDesc] at h
        rcases h1 : specWalkList sp fuel st 0 children with er | r <;> rw [h1] at h
        · exact absurd h (by simp [exc_error_bind])
        rw [exc_ok_bind] at h
        simp only [Except.ok.injEq, Prod.mk.injEq] at h
        obtain ⟨hevs, hst⟩ := h
        subst hevs
        subst hst
        have hstep1 : readEvent sp ⟨si, st.src, ⟨ty, ds, i⟩ :: stack0, st.ops⟩ =
            .ok (.sequenceStart i xy,
              ⟨si, st.src, ⟨.sequence, children, 0⟩ :: ⟨ty, ds, i + 1⟩ :: stack0, st.ops⟩) := by
          rw [readEvent_dispatch sp si st.src ty ds i stack0 st.ops _ hget]
          exact stepDescriptor_seq sp _ ty ds i stack0 xy children
        have hmid := ihL st 0 children r.1 r.2 (by rw [h1]) children (by simp)
          .sequence (⟨ty, ds, i + 1⟩ :: stack0) si
        rw [Nat.zero_add] at hmid
        have hstep3 : readEvent sp
            ⟨si, r.2.src, ⟨.sequence, children, children.length⟩ :: ⟨ty, ds, i + 1⟩ :: stack0,
              r.2.ops⟩ =
            .ok (.sequenceEnd, ⟨si, r.2.src, ⟨ty, ds, i + 1⟩ :: stack0, r.2.ops⟩) :=
          readEvent_seq_end sp si r.2.src children children.length _ stack0 r.2.ops
            (le_refl _)
        exact .step hstep1 (by simp)
          (hmid.append (StepsTo.single hstep3 (by simp)))
      | .repl y db children =>
        by_cases hy : y = 0
        · subst hy
          simp only [specWalkDesc, if_true] at h
          rcases hrv : readVar16 db st.src with er | rc <;> rw [hrv] at h
          · exact absurd h (by simp [exc_error_bind])
          rw [exc_ok_bind] at h
          rcases h2 : specReplItems sp fuel ⟨rc.2, st.ops⟩ children rc.1 with er | r <;>
            rw [h2] at h
          · exact absurd h (by simp [exc_error_bind])
          rw [exc_ok_bind] at h
          simp only [Except.ok.injEq, Prod.mk.injEq] at h
          obtain ⟨hevs, hst⟩ := h
          subst hevs
          subst hst
          have hstep1 : readEvent sp ⟨si, st.src, ⟨ty, ds, i⟩ :: stack0, st.ops⟩ =
              .ok (.replicationStart i rc.1,
                ⟨si, rc.2, ⟨.replication rc.1 false, children, children.length⟩ ::
                  ⟨ty, ds, i + 1⟩ :: stack0, st.ops⟩) := by
            rw [readEvent_dispatch sp si st.src ty ds i stack0 st.ops _ hget]
            exact stepDescriptor_repl0 sp _ ty ds i stack0 db children rc hrv
          have hrest := ihR ⟨rc.2, st.ops⟩ children rc.1 r.1 r.2 (by rw [h2])
            (⟨ty, ds, i + 1⟩ :: stack0) si
          exact .step hstep1 (by simp) hrest
        · simp only [specWalkDesc] at h
          rw [if_neg hy, exc_ok_bind] at h
          rcases h2 : specReplItems sp fuel ⟨st.src, st.ops⟩ children y with er | r <;>
            rw [h2] at h
          · exact absurd h (by simp [exc_error_bind])
          rw [exc_ok_bind] at h
          simp only [Except.ok.injEq, Prod.mk.injEq] at h
          obtain ⟨hevs, hst⟩ := h
          subst hevs
          subst hst
          have hstep1 : readEvent sp ⟨si, st.src, ⟨ty, ds, i⟩ :: stack0, st.ops⟩ =
              .ok (.replicationStart i y,
                ⟨si, st.src, ⟨.replication y false, children, children.length⟩ ::
                  ⟨ty, ds, i + 1⟩ :: stack0, st.ops⟩) := by
            rw [readEvent_dispatch sp si st.src ty ds i stack0 st.ops _ hget]
            exact stepDescriptor_replN sp _ ty ds i stack0 y db children hy
          have hrest := ihR ⟨st.src, st.ops⟩ children y r.1 r.2 (by rw [h2])
            (⟨ty, ds, i + 1⟩ :: stack0) si
          exact .step hstep1 (by simp) hrest
    · -- replication iterations
      intro st ch k evs st' h stack0 si
      match k with
      | 0 =>
        simp only [specReplItems, Except.ok.injEq, Prod.mk.injEq] at h
        obtain ⟨hevs, hst⟩ := h
        subst hevs
        subst hst
        exact StepsTo.single
          (readEvent_repl_end sp si st.src ch ch.length stack0 st.ops (le_refl _))
          (by simp)
      | k + 1 =>
        simp only [specReplItems] at h
        rcases h1 : specWalkList sp fuel st 0 ch with er | r1 <;> rw [h1] at h
        · exact absurd h (by simp [exc_error_bind])
        rw [exc_ok_bind] at h
        rcases h2 : specReplItems sp fuel r1.2 ch k with er | r2 <;> rw [h2] at h
        · exact absurd h (by simp [exc_error_bind])
        rw [exc_ok_bind] at h
        simp only [Except.ok.injEq, Prod.mk.injEq] at h
        obtain ⟨hevs, hst⟩ := h
        subst hevs
        subst hst
        have hstep1 := readEvent_item_start sp si st.src k ch ch.length stack0 st.ops
          (le_refl _)
        have hmid := ihL st 0 ch r1.1 r1.2 (by rw [h1]) ch (by simp)
          (.replication k true) stack0 si
        rw [Nat.zero_add] at hmid
        have hstep3 := readEvent_item_end sp si r1.2.src k ch ch.length stack0 r1.2.ops
          (le_refl _)
        have hrest := ihR r1.2 ch k r2.1 r2.2 (by rw [h2]) stack0 si
        have hall := StepsTo.step hstep1 (by simp)
          (hmid.append (StepsTo.step hstep3 (by simp) hrest))
        have hsh : Event.replicationItemStart ::
            (r1.1 ++ Event.replicationItemEnd :: (r2.1 ++ [Event.replicationEnd])) =
            (Event.replicationItemStart :: r1.1 ++ Event.replicationItemEnd :: r2.1) ++
              [Event.replicationEnd] := by
          simp
        rw [← hsh]
        exact hall

/-- Enough fuel turns a `StepsTo` chain ending at `Eof` into a complete
`runEvents` result. -/
theorem runEvents_of_steps {sp : DataSpec} {s : MState} {evs : List Event} {s_f : MState}
    (h : StepsTo sp s evs s_f) {s'' : MState}
    (hEof : readEvent sp s_f = .ok (.eof, s'')) :
    runEvents sp (evs.length + 1) s = .ok (evs ++ [.eof]) := by
  induction h with
  | refl s => simp [runEvents, hEof]
  | @step s e s₁ evs s₂ hr hne _ ih =>
    show runEvents sp (evs.length + 1 + 1) s = _
    unfold runEvents
    rw [hr]
    match e, hne with
    | .subsetStart i, _ => simp [ih hEof, Except.map]
    | .subsetEnd, _ => simp [ih hEof, Except.map]
    | .compressedStart, _ => simp [ih hEof, Except.map]
    | .replicationStart i c, _ => simp [ih hEof, Except.map]
    | .replicationItemStart, _ => simp [ih hEof, Except.map]
    | .replicationItemEnd, _ => simp [ih hEof, Except.map]
    | .replicationEnd, _ => simp [ih hEof, Except.map]
    | .sequenceStart i xy, _ => simp [ih hEof, Except.map]
    | .sequenceEnd, _ => simp [ih hEof, Except.map]
    | .operatorHandled i x v, _ => simp [ih hEof, Except.map]
    | .data i xy v, _ => simp [ih hEof, Except.map]
    | .compressedData i xy vs, _ => simp [ih hEof, Except.map]

/-- Simulation of the non-compressed subset loop: the machine, started
with an empty stack at subset `i`, emits everything `specSubsets` lists
except the final `Eof`, which the next `read_event` then reports. -/
theorem simSubsets (sp : DataSpec) (hcomp : sp.isCompressed = false) :
    ∀ (fuel : ℕ) (st : DState) (i : ℕ) (evs : List Event),
      specSubsets sp fuel st i = .ok evs →
      ∃ (evs' : List Event) (s_f : MState) (s'' : MState),
        evs = evs' ++ [.eof] ∧
        StepsTo sp ⟨i, st.src, [], st.ops⟩ evs' s_f ∧
        readEvent sp s_f = .ok (.eof, s'') := by
  intro fuel
  induction fuel with
  | zero => intro st i evs h; exact absurd h (by simp [specSubsets])
  | succ fuel ih =>
    intro st i evs h
    simp only [specSubsets] at h
    split_ifs at h with hi
    · simp only [Except.ok.injEq] at h
      subst h
      exact ⟨[], ⟨i, st.src, [], st.ops⟩, ⟨i, st.src, [], st.ops⟩, by simp,
        .refl _, readEvent_nc_eof sp i st.src st.ops hcomp hi⟩
    · rcases h1 : specWalkList sp fuel st 0 sp.rootDescriptors with er | r <;> rw [h1] at h
      · exact absurd h (by simp [exc_error_bind])
      rw [exc_ok_bind] at h
      rcases h2 : specSubsets sp fuel r.2 (i + 1) with er | rest <;> rw [h2] at h
      · exact absurd h (by simp [exc_error_bind])
      rw [exc_ok_bind] at h
      simp only [Except.ok.injEq] at h
      subst h
      obtain ⟨evs', s_f, s'', hsplit, hsteps, hEof⟩ := ih r.2 (i + 1) rest h2
      have hstep1 := readEvent_subset_start sp i st.src st.ops hcomp hi
      have hwalk := (simMaster sp fuel).1 st 0 sp.rootDescriptors r.1 r.2 (by rw [h1])
        sp.rootDescriptors (by simp) .sequence [] i
      rw [Nat.zero_add] at hwalk
      have hstep3 : readEvent sp
          ⟨i, r.2.src, [⟨.sequence, sp.rootDescriptors, sp.rootDescriptors.length⟩], r.2.ops⟩ =
          .ok (.subsetEnd, ⟨i, r.2.src, [], r.2.ops⟩) :=
        readEvent_subset_end sp i r.2.src sp.rootDescriptors sp.rootDescriptors.length
          r.2.ops (le_refl _) hcomp
      -- the subset counter is not part of the walk states; shift it
      have hwalk' := hwalk
      refine ⟨.subsetStart i :: r.1 ++ .subsetEnd :: evs', s_f, s'', ?_, ?_, hEof⟩
      · rw [hsplit]
        simp
      · refine StepsTo.step hstep1 (by simp) ?_
        -- walk of the roots inside subset i, with the counter already at i + 1
        have hwalkI := (simMaster sp fuel).1 st 0 sp.rootDescriptors r.1 r.2 (by rw [h1])
          sp.rootDescriptors (by simp) .sequence [] (i + 1)
        rw [Nat.zero_add] at hwalkI
        have hstep3I : readEvent sp
            ⟨i + 1, r.2.src, [⟨.sequence, sp.rootDescriptors, sp.rootDescriptors.length⟩],
              r.2.ops⟩ =
            .ok (.subsetEnd, ⟨i + 1, r.2.src, [], r.2.ops⟩) :=
          readEvent_subset_end sp (i + 1) r.2.src sp.rootDescriptors
            sp.rootDescriptors.length r.2.ops (le_refl _) hcomp
        exact hwalkI.append (StepsTo.step hstep3I (by simp) hsteps)

/-- Simulation of the compressed single pass. -/
theorem simCompressed (sp : DataSpec) (hcomp : sp.isCompressed = true)
    (fuel : ℕ) (src : BitSrc) (evs : List Event) (st' : DState)
    (h : specWalkList sp fuel ⟨src, OpState.init⟩ 0 sp.rootDescriptors = .ok (evs, st')) :
    ∃ (s_f : MState) (s'' : MState),
      StepsTo sp (initState src) (.compressedStart :: evs) s_f ∧
      readEvent sp s_f = .ok (.eof, s'') := by
  have hstep1 := readEvent_comp_start sp src OpState.init hcomp
  have hwalk := (simMaster sp fuel).1 ⟨src, OpState.init⟩ 0 sp.rootDescriptors evs st' h
    sp.rootDescriptors (by simp) .sequence [] 1
  rw [Nat.zero_add] at hwalk
  have hstep3 : readEvent sp
      ⟨1, st'.src, [⟨.sequence, sp.rootDescriptors, sp.rootDescriptors.length⟩], st'.ops⟩ =
      .ok (.eof, ⟨1, st'.src, [], st'.ops⟩) :=
    readEvent_comp_eof sp 1 st'.src sp.rootDescriptors sp.rootDescriptors.length st'.ops
      (le_refl _) hcomp
  exact ⟨_, _, StepsTo.step hstep1 (by simp) hwalk, hstep3⟩

/-- Inner-segment events: no subset/compressed opener and no `Eof`. -/
def notTop (e : Event) : Prop :=
  isSubsetStart e = false ∧ isCompressedStart e = false ∧ e ≠ .eof

/-- A balanced inner segment: the matcher returns every starting stack
unchanged, and no top-level event occurs. -/
def segOk (evs : List Event) : Prop :=
  (∀ stk : List Tag, nestAux stk evs = some stk) ∧ ∀ e ∈ evs, notTop e

/-- The matcher distributes over appending an `Eof`-free segment. -/
theorem nestAux_append (a b : List Event) (hne : Event.eof ∉ a) :
    ∀ stk, nestAux stk (a ++ b) = (nestAux stk a).bind fun stk' => nestAux stk' b := by
  induction a with
  | nil => intro stk; simp [nestAux]
  | cons e rest ih =>
    have hne' : Event.eof ∉ rest := fun hc => hne (List.mem_cons_of_mem _ hc)
    have hee : e ≠ .eof := fun hc => hne (hc ▸ List.mem_cons_self _ _)
    intro stk
    match e, hee with
    | .subsetStart i, _ =>
      simp only [List.cons_append, nestAux]
      exact ih hne' _
    | .sequenceStart i xy, _ =>
      simp only [List.cons_append, nestAux]
      exact ih hne' _
    | .replicationStart i c, _ =>
      simp only [List.cons_append, nestAux]
      exact ih hne' _
    | .replicationItemStart, _ =>
      simp only [List.cons_append, nestAux]
      exact ih hne' _
    | .compressedStart, _ =>
      simp only [List.cons_append, nestAux]
      exact ih hne' _
    | .operatorHandled i x v, _ =>
      simp only [List.cons_append, nestAux]
      exact ih hne' _
    | .data i xy v, _ =>
      simp only [List.cons_append, nestAux]
      exact ih hne' _
    | .compressedData i xy vs, _ =>
      simp only [List.cons_append, nestAux]
      exact ih hne' _
    | .subsetEnd, _ =>
      match stk with
      | [] => simp [nestAux]
      | tg :: stk' =>
        cases tg <;> simp only [List.cons_append, nestAux] <;>
          first
          | exact ih hne' _
          | rfl
    | .sequenceEnd, _ =>
      match stk with
      | [] => simp [nestAux]
      | tg :: stk' =>
        cases tg <;> simp only [List.cons_append, nestAux] <;>
          first
          | exact ih hne' _
          | rfl
    | .replicationEnd, _ =>
      match stk with
      | [] => simp [nestAux]
      | tg :: stk' =>
        cases tg <;> simp only [List.cons_append, nestAux] <;>
          first
          | exact ih hne' _
          | rfl
    | .replicationItemEnd, _ =>
      match stk with
      | [] => simp [nestAux]
      | tg :: stk' =>
        cases tg <;> simp only [List.cons_append, nestAux] <;>
          first
          | exact ih hne' _
          | rfl

/-- `segOk` segments compose. -/
theorem segOk_append {a b : List Event} (ha : segOk a) (hb : segOk b) :
    segOk (a ++ b) := by
  obtain ⟨han, ham⟩ := ha
  obtain ⟨hbn, hbm⟩ := hb
  have hne : Event.eof ∉ a := fun hc => (ham _ hc).2.2 rfl
  refine ⟨?_, ?_⟩
  · intro stk
    rw [nestAux_append a b hne, han stk]
    exact hbn stk
  · intro e he
    rcases List.mem_append.mp he with h | h
    · exact ham e h
    · exact hbm e h

/-- The shape of a successful data event. -/
theorem handleData_ok_shape (sp : DataSpec) (ops : OpState) (idx : ℕ)
    (b : TableBEntry) (src : BitSrc) (r : Event × BitSrc)
    (h : handleDataDescriptor sp ops idx b src = .ok r) :
    (∃ v, r.1 = .data idx b.xy v) ∨ (∃ vs, r.1 = .compressedData idx b.xy vs) := by
  by_cases hw : effWidth ops b ≤ 32
  · match hc : sp.isCompressed with
    | true =>
      rw [handleData_comp sp ops idx b src hc hw] at h
      split_ifs at h
      · rcases hd : decodeScalar (effWidth ops b) (effScale ops b) b.referenceValue
            (src.readUint (effWidth ops b)) with er | v <;> rw [hd] at h
        · exact absurd h (by simp [exc_error_bind])
        · rw [exc_ok_bind] at h
          simp only [Except.ok.injEq] at h
          rw [← h]
          exact .inr ⟨_, rfl⟩
      · rcases hr : readIncrements (effWidth ops b) (effScale ops b) b.referenceValue
            (src.readUint (effWidth ops b)) ((src.advance (effWidth ops b)).readUint 6)
            sp.numberOfSubsets ((src.advance (effWidth ops b)).advance 6) with er | rr <;>
          rw [hr] at h
        · exact absurd h (by simp [exc_error_bind])
        · rw [exc_ok_bind] at h
          simp only [Except.ok.injEq] at h
          rw [← h]
          exact .inr ⟨_, rfl⟩
    | false =>
      rw [handleData_nc sp ops idx b src hc hw] at h
      rcases hd : decodeScalar (effWidth ops b) (effScale ops b) b.referenceValue
          (src.readUint (effWidth ops b)) with er | v <;> rw [hd] at h
      · exact absurd h (by simp [Except.map])
      · simp only [Except.map, Except.ok.injEq] at h
        rw [← h]
        exact .inl ⟨_, rfl⟩
  · by_cases hm : effWidth ops b % 8 = 0
    · rw [handleData_char sp ops idx b src hw hm] at h
      split_ifs at h <;> (simp only [Except.ok.injEq] at h; rw [← h]; exact .inl ⟨_, rfl⟩)
    · unfold handleDataDescriptor at h
      rw [if_neg hw, if_neg hm] at h
      exact absurd h (by simp)

/-- Every successful grammar-walk segment is balanced and contains no
top-level events (proved for the three mutual walks at once). -/
theorem walkSeg (sp : DataSpec) : ∀ fuel : ℕ,
    (∀ (st : DState) (i : ℕ) (l : List RDesc) (evs : List Event) (st' : DState),
      specWalkList sp fuel st i l = .ok (evs, st') → segOk evs) ∧
    (∀ (st : DState) (i : ℕ) (d : RDesc) (evs : List Event) (st' : DState),
      specWalkDesc sp fuel st i d = .ok (evs, st') → segOk evs) ∧
    (∀ (st : DState) (ch : List RDesc) (k : ℕ) (evs : List Event) (st' : DState),
      specReplItems sp fuel st ch k = .ok (evs, st') → segOk evs) := by
  intro fuel
  induction fuel with
  | zero =>
    refine ⟨?_, ?_, ?_⟩ <;> intro st _ _ _ _ h <;>
      exact absurd h (by simp [specWalkList, specWalkDesc, specReplItems])
  | succ fuel ih =>
    obtain ⟨ihL, ihD, ihR⟩ := ih
    refine ⟨?_, ?_, ?_⟩
    · intro st i l evs st' h
      match l with
      | [] =>
        simp only [specWalkList, Except.ok.injEq, Prod.mk.injEq] at h
        rw [← h.1]
        exact ⟨fun stk => rfl, by simp⟩
      | d :: t =>
        simp only [specWalkList] at h
        rcases h1 : specWalkDesc sp fuel st i d with er | r1 <;> rw [h1] at h
        · exact absurd h (by simp [exc_error_bind])
        rw [exc_ok_bind] at h
        rcases h2 : specWalkList sp fuel r1.2 (i + 1) t with er | r2 <;> rw [h2] at h
        · exact absurd h (by simp [exc_error_bind])
        rw [exc_ok_bind] at h
        simp only [Except.ok.injEq, Prod.mk.injEq] at h
        rw [← h.1]
        exact segOk_append (ihD st i d r1.1 r1.2 (by rw [h1]))
          (ihL r1.2 (i + 1) t r2.1 r2.2 (by rw [h2]))
    · intro st i d evs st' h
      match d with
      | .data b =>
        simp only [specWalkDesc] at h
        rcases hh : handleDataDescriptor sp st.ops i b st.src with er | r <;> rw [hh] at h
        · exact absurd h (by simp [exc_error_bind])
        rw [exc_ok_bind] at h
        simp only [Except.ok.injEq, Prod.mk.injEq] at h
        rw [← h.1]
        rcases handleData_ok_shape sp st.ops i b st.src r hh with ⟨v, hv⟩ | ⟨vs, hv⟩ <;>
          rw [hv] <;>
          exact ⟨fun stk => rfl, by simp [notTop, isSubsetStart, isCompressedStart]⟩
      | .op xy =>
        simp only [specWalkDesc] at h
        rcases hh : handleOperatorDescriptor i xy st.ops with er | r <;> rw [hh] at h
        · exact absurd h (by simp [exc_error_bind])
        rw [exc_ok_bind] at h
        simp only [Except.ok.injEq, Prod.mk.injEq] at h
        rw [← h.1, handleOperator_ok_event i xy st.ops r hh]
        exact ⟨fun stk => rfl, by simp [notTop, isSubsetStart, isCompressedStart]⟩
      | .seq xy children =>
        simp only [specWalkDesc] at h
        rcases h1 : specWalkList sp fuel st 0 children with er | r <;> rw [h1] at h
        · exact absurd h (by simp [exc_error_bind])
        rw [exc_ok_bind] at h
        simp only [Except.ok.injEq, Prod.mk.injEq] at h
        rw [← h.1]
        obtain ⟨hn, hm⟩ := ihL st 0 children r.1 r.2 (by rw [h1])
        have hne : Event.eof ∉ r.1 := fun hc => (hm _ hc).2.2 rfl
        refine ⟨?_, ?_⟩
        · intro stk
          show nestAux (.seqT :: stk) (r.1 ++ [.sequenceEnd]) = some stk
          rw [nestAux_append r.1 [.sequenceEnd] hne, hn]
          rfl
        · intro e he
          rcases List.mem_cons.mp he with rfl | he
          · exact ⟨rfl, rfl, by simp⟩
          rcases List.mem_append.mp he with he | he
          · exact hm e he
          · simp only [List.mem_singleton] at he
            subst he
            exact ⟨rfl, rfl, by simp⟩
      | .repl y db children =>
        simp only [specWalkDesc] at h
        have key : ∀ (rc : ℕ × BitSrc) (r : List Event × DState),
            specReplItems sp fuel ⟨rc.2, st.ops⟩ children rc.1 = .ok r →
            evs = .replicationStart i rc.1 :: r.1 ++ [.replicationEnd] → segOk evs := by
          intro rc r h2 hevs
          obtain ⟨hn, hm⟩ := ihR ⟨rc.2, st.ops⟩ children rc.1 r.1 r.2 (by rw [h2])
          have hne : Event.eof ∉ r.1 := fun hc => (hm _ hc).2.2 rfl
          subst hevs
          refine ⟨?_, ?_⟩
          · intro stk
            show nestAux (.replT :: stk) (r.1 ++ [.replicationEnd]) = some stk
            rw [nestAux_append r.1 [.replicationEnd] hne, hn]
            rfl
          · intro e he
            rcases List.mem_cons.mp he with rfl | he
            · exact ⟨rfl, rfl, by simp⟩
            rcases List.mem_append.mp he with he | he
            · exact hm e he
            · simp only [List.mem_singleton] at he
              subst he
              exact ⟨rfl, rfl, by simp⟩
        by_cases hy : y = 0
        · subst hy
          rw [if_pos rfl] at h
          rcases hrv : readVar16 db st.src with er | rc <;> rw [hrv] at h
          · exact absurd h (by simp [exc_error_bind])
          rw [exc_ok_bind] at h
          rcases h2 : specReplItems sp fuel ⟨rc.2, st.ops⟩ children rc.1 with er | r <;>
            rw [h2] at h
          · exact absurd h (by simp [exc_error_bind])
          rw [exc_ok_bind] at h
          simp only [Except.ok.injEq, Prod.mk.injEq] at h
          exact key rc r (by rw [h2]) h.1.symm
        · rw [if_neg hy, exc_ok_bind] at h
          rcases h2 : specReplItems sp fuel ⟨st.src, st.ops⟩ children y with er | r <;>
            rw [h2] at h
          · exact absurd h (by simp [exc_error_bind])
          rw [exc_ok_bind] at h
          simp only [Except.ok.injEq, Prod.mk.injEq] at h
          exact key (y, st.src) r (by rw [h2]) h.1.symm
    · intro st ch k evs st' h
      match k with
      | 0 =>
        simp only [specReplItems, Except.ok.injEq, Prod.mk.injEq] at h
        rw [← h.1]
        exact ⟨fun stk => rfl, by simp⟩
      | k + 1 =>
        simp only [specReplItems] at h
        rcases h1 : specWalkList sp fuel st 0 ch with er | r1 <;> rw [h1] at h
        · exact absurd h (by simp [exc_error_bind])
        rw [exc_ok_bind] at h
        rcases h2 : specReplItems sp fuel r1.2 ch k with er | r2 <;> rw [h2] at h
        · exact absurd h (by simp [exc_error_bind])
        rw [exc_ok_bind] at h
        simp only [Except.ok.injEq, Prod.mk.injEq] at h
        rw [← h.1]
        obtain ⟨hn1, hm1⟩ := ihL st 0 ch r1.1 r1.2 (by rw [h1])
        obtain ⟨hn2, hm2⟩ := ihR r1.2 ch k r2.1 r2.2 (by rw [h2])
        have hne1 : Event.eof ∉ r1.1 := fun hc => (hm1 _ hc).2.2 rfl
        refine ⟨?_, ?_⟩
        · intro stk
          show nestAux (.itemT :: stk) (r1.1 ++ .replicationItemEnd :: r2.1) = some stk
          rw [nestAux_append r1.1 (.replicationItemEnd :: r2.1) hne1, hn1]
          show nestAux stk r2.1 = some stk
          exact hn2 stk
        · intro e he
          rcases List.mem_cons.mp he with rfl | he
          · exact ⟨rfl, rfl, by simp⟩
          rcases List.mem_append.mp he with he | he
          · exact hm1 e he
          rcases List.mem_cons.mp he with rfl | he
          · exact ⟨rfl, rfl, by simp⟩
          · exact hm2 e he

/-- A successful subset loop is well nested and opens exactly one subset
per remaining iteration (and nothing compressed). -/
theorem specSubsets_shape (sp : DataSpec) :
    ∀ (fuel : ℕ) (st : DState) (i : ℕ) (evs : List Event),
      i ≤ sp.numberOfSubsets →
      specSubsets sp fuel st i = .ok evs →
      nestAux [] evs = some [] ∧
      evs.countP isSubsetStart = sp.numberOfSubsets - i ∧
      evs.countP isCompressedStart = 0 := by
  intro fuel
  induction fuel with
  | zero => intro st i evs _ h; exact absurd h (by simp [specSubsets])
  | succ fuel ih =>
    intro st i evs hi h
    simp only [specSubsets] at h
    split_ifs at h with hN
    · simp only [Except.ok.injEq] at h
      subst h
      refine ⟨by simp [nestAux], ?_, ?_⟩ <;>
        simp [List.countP_cons, isSubsetStart, isCompressedStart, hN]
    · rcases h1 : specWalkList sp fuel st 0 sp.rootDescriptors with er | r <;> rw [h1] at h
      · exact absurd h (by simp [exc_error_bind])
      rw [exc_ok_bind] at h
      rcases h2 : specSubsets sp fuel r.2 (i + 1) with er | rest <;> rw [h2] at h
      · exact absurd h (by simp [exc_error_bind])
      rw [exc_ok_bind] at h
      simp only [Except.ok.injEq] at h
      subst h
      have hi' : i + 1 ≤ sp.numberOfSubsets := by omega
      obtain ⟨hn2, hc2, hcc2⟩ := ih r.2 (i + 1) rest hi' h2
      obtain ⟨hn1, hm1⟩ := (walkSeg sp fuel).1 st 0 sp.rootDescriptors r.1 r.2 (by rw [h1])
      have hne1 : Event.eof ∉ r.1 := fun hc => (hm1 _ hc).2.2 rfl
      refine ⟨?_, ?_, ?_⟩
      · show nestAux [.subsetT] (r.1 ++ .subsetEnd :: rest) = some []
        rw [nestAux_append r.1 (.subsetEnd :: rest) hne1, hn1]
        exact hn2
      · have hz1 : r.1.countP isSubsetStart = 0 :=
          List.countP_eq_zero.mpr fun e he => by simp [(hm1 e he).1]
        simp [List.countP_cons, List.countP_append, hz1, hc2, isSubsetStart]
        omega
      · have hz1 : r.1.countP isCompressedStart = 0 :=
          List.countP_eq_zero.mpr fun e he => by simp [(hm1 e he).2.1]
        simp [List.countP_cons, List.countP_append, hz1, hcc2,
          isSubsetStart, isCompressedStart]

/-- C3.  Refinement of the §4.4 event grammar: every trace produced by the
spec-side grammar walk is also produced by the reader's event machine
(with enough fuel), is well nested, contains `SubsetStart` exactly
`number_of_subsets` times in non-compressed mode and never in compressed
mode, and contains `CompressedStart` exactly once in compressed mode and
never otherwise. -/
theorem c3_event_stream (sp : DataSpec) (src : BitSrc) (fuel : ℕ) (evs : List Event)
    (h : specMessageTrace sp fuel src = .ok evs) :
    (∃ mfuel, runEvents sp mfuel (initState src) = .ok evs) ∧
    nestOk evs = true ∧
    evs.countP isSubsetStart = (if sp.isCompressed then 0 else sp.numberOfSubsets) ∧
    evs.countP isCompressedStart = (if sp.isCompressed then 1 else 0) := by
  unfold specMessageTrace at h
  rcases hcomp : sp.isCompressed with _ | _ <;> rw [hcomp] at h
  · simp only [if_neg (Bool.false_ne_true)] at h
    obtain ⟨hn, hc, hcc⟩ := specSubsets_shape sp fuel ⟨src, OpState.init⟩ 0 evs
      (Nat.zero_le _) h
    obtain ⟨evs', s_f, s'', hevs, hsteps, heof⟩ := simSubsets sp hcomp fuel ⟨src, OpState.init⟩ 0 evs h
    refine ⟨⟨evs'.length + 1, ?_⟩, ?_, ?_, ?_⟩
    · rw [hevs]
      exact runEvents_of_steps hsteps heof
    · simp [nestOk, hn]
    · rw [hc]; simp
    · rw [hcc]; simp
  · rw [if_pos rfl] at h
    rcases h1 : specWalkList sp fuel ⟨src, OpState.init⟩ 0 sp.rootDescriptors with er | r <;>
      rw [h1] at h
    · exact absurd h (by simp [exc_error_bind])
    rw [exc_ok_bind] at h
    simp only [Except.ok.injEq] at h
    subst h
    obtain ⟨hn1, hm1⟩ := (walkSeg sp fuel).1 ⟨src, OpState.init⟩ 0 sp.rootDescriptors r.1 r.2
      (by rw [h1])
    have hne1 : Event.eof ∉ r.1 := fun hc => (hm1 _ hc).2.2 rfl
    obtain ⟨s_f, s'', hsteps, heof⟩ := simCompressed sp hcomp fuel src r.1 r.2 (by rw [h1])
    refine ⟨⟨(Event.compressedStart :: r.1).length + 1, ?_⟩, ?_, ?_, ?_⟩
    · have := runEvents_of_steps hsteps heof
      simpa using this
    · show nestOk (.compressedStart :: r.1 ++ [.eof]) = true
      simp only [nestOk]
      show (nestAux [] (r.1 ++ [.eof]) == some []) = true
      rw [nestAux_append r.1 [.eof] hne1, hn1]
      rfl
    · have hz1 : r.1.countP isSubsetStart = 0 :=
        List.countP_eq_zero.mpr fun e he => by simp [(hm1 e he).1]
      simp [List.countP_cons, List.countP_append, hz1, isSubsetStart, isCompressedStart]
    · have hz1 : r.1.countP isCompressedStart = 0 :=
        List.countP_eq_zero.mpr fun e he => by simp [(hm1 e he).2.1]
      simp [List.countP_cons, List.countP_append, hz1, isCompressedStart]

/-- C3 (witness): a one-subset, one-element non-compressed message; the
grammar walk produces the four-event trace and the refinement theorem
yields the machine run, the nesting check and both counts for it. -/
theorem c3_event_stream_witness :
    specMessageTrace ⟨1, false, [.data b8s0]⟩ 10 src0 =
      .ok [.subsetStart 0, .data 0 b8s0.xy (.integer 0), .subsetEnd, .eof] ∧
    ((∃ mfuel, runEvents ⟨1, false, [.data b8s0]⟩ mfuel
        (initState src0) =
        .ok [.subsetStart 0, .data 0 b8s0.xy (.integer 0), .subsetEnd, .eof]) ∧
      nestOk [.subsetStart 0, .data 0 b8s0.xy (.integer 0), .subsetEnd, .eof] = true ∧
      [Event.subsetStart 0, .data 0 b8s0.xy (.integer 0), .subsetEnd, .eof].countP
          isSubsetStart =
        (if (⟨1, false, [.data b8s0]⟩ : DataSpec).isCompressed then 0
         else (⟨1, false, [.data b8s0]⟩ : DataSpec).numberOfSubsets) ∧
      [Event.subsetStart 0, .data 0 b8s0.xy (.integer 0), .subsetEnd, .eof].countP
          isCompressedStart =
        (if (⟨1, false, [.data b8s0]⟩ : DataSpec).isCompressed then 1 else 0)) :=
  ⟨by decide, c3_event_stream ⟨1, false, [.data b8s0]⟩ src0 10
    [.subsetStart 0, .data 0 b8s0.xy (.integer 0), .subsetEnd, .eof] (by decide)⟩

/-- A successful replication body is exactly `k` item blocks, each a
balanced segment wrapped in `ReplicationItemStart`/`ReplicationItemEnd`. -/
theorem specReplItems_decomp (sp : DataSpec) :
    ∀ (fuel : ℕ) (st : DState) (ch : List RDesc) (k : ℕ) (evs : List Event) (st' : DState),
      specReplItems sp fuel st ch k = .ok (evs, st') →
      ∃ inners : List (List Event),
        evs = (inners.map fun iv =>
          .replicationItemStart :: iv ++ [.replicationItemEnd]).flatten ∧
        inners.length = k ∧
        ∀ iv ∈ inners, nestClosed iv = true := by
  intro fuel
  induction fuel with
  | zero => intro st ch k evs st' h; exact absurd h (by simp [specReplItems])
  | succ fuel ih =>
    intro st ch k evs st' h
    match k with
    | 0 =>
      simp only [specReplItems, Except.ok.injEq, Prod.mk.injEq] at h
      exact ⟨[], by simp [← h.1], rfl, by simp⟩
    | k + 1 =>
      simp only [specReplItems] at h
      rcases h1 : specWalkList sp fuel st 0 ch with er | r1 <;> rw [h1] at h
      · exact absurd h (by simp [exc_error_bind])
      rw [exc_ok_bind] at h
      rcases h2 : specReplItems sp fuel r1.2 ch k with er | r2 <;> rw [h2] at h
      · exact absurd h (by simp [exc_error_bind])
      rw [exc_ok_bind] at h
      simp only [Except.ok.injEq, Prod.mk.injEq] at h
      obtain ⟨inners2, hjoin, hlen, hcl⟩ := ih r1.2 ch k r2.1 r2.2 (by rw [h2])
      obtain ⟨hn1, _⟩ := (walkSeg sp fuel).1 st 0 ch r1.1 r1.2 (by rw [h1])
      refine ⟨r1.1 :: inners2, ?_, by simp [hlen], ?_⟩
      · rw [← h.1, hjoin]
        simp
      · intro iv hiv
        rcases List.mem_cons.mp hiv with rfl | hiv
        · simp only [nestClosed, hn1 []]
          rfl
        · exact hcl iv hiv

/-- C6.  Replication arity and the delayed count.  (1) In the event
grammar, a replication node produces `ReplicationStart{count=k}`, then
exactly `k` item blocks — each a balanced segment between its own
`ReplicationItemStart` and `ReplicationItemEnd` — then `ReplicationEnd`;
`k` is the descriptor's literal count when `y ≠ 0` and, for delayed
replication (`y = 0`), the unsigned integer of width `delayed_bits` read
from the bit stream on entering the node.  (2) In the reader itself, when
the next descriptor is a delayed replication, `read_event` reads the
count (`delayed_bits` bits, advancing the stream by exactly that much) at
that moment and emits `ReplicationStart` with it — descriptor resolution
recorded only the width. -/
theorem c6_replication (sp : DataSpec) :
    (∀ (fuel : ℕ) (st : DState) (idx y db : ℕ) (ch : List RDesc)
        (evs : List Event) (st' : DState),
      specWalkDesc sp fuel st idx (.repl y db ch) = .ok (evs, st') →
      ∃ (k : ℕ) (inners : List (List Event)),
        evs = .replicationStart idx k ::
          (inners.map fun iv =>
            .replicationItemStart :: iv ++ [.replicationItemEnd]).flatten
          ++ [.replicationEnd] ∧
        inners.length = k ∧
        (∀ iv ∈ inners, nestClosed iv = true) ∧
        (y ≠ 0 → k = y) ∧
        (y = 0 → db ≤ 16 ∧ k = st.src.readUint db)) ∧
    (∀ (si : ℕ) (src : BitSrc) (ty : FrameTy) (ds : List RDesc) (nx : ℕ)
        (stack0 : List Frame) (ops : OpState) (db : ℕ) (ch : List RDesc),
      ds[nx]? = some (.repl 0 db ch) → db ≤ 16 →
      readEvent sp ⟨si, src, ⟨ty, ds, nx⟩ :: stack0, ops⟩ =
        .ok (.replicationStart nx (src.readUint db),
          ⟨si, src.advance db,
            ⟨.replication (src.readUint db) false, ch, ch.length⟩ ::
              ⟨ty, ds, nx + 1⟩ :: stack0, ops⟩)) := by
  constructor
  · intro fuel st idx y db ch evs st' h
    match fuel with
    | 0 => exact absurd h (by simp [specWalkDesc])
    | fuel + 1 =>
      simp only [specWalkDesc] at h
      by_cases hy : y = 0
      · subst hy
        rw [if_pos rfl] at h
        unfold readVar16 at h
        split_ifs at h with hdb
        · exact absurd h (by simp [exc_error_bind])
        rw [exc_ok_bind] at h
        rcases h2 : specReplItems sp fuel ⟨st.src.advance db, st.ops⟩ ch
            (st.src.readUint db) with er | r <;> rw [h2] at h
        · exact absurd h (by simp [exc_error_bind])
        rw [exc_ok_bind] at h
        simp only [Except.ok.injEq, Prod.mk.injEq] at h
        obtain ⟨inners, hjoin, hlen, hcl⟩ :=
          specReplItems_decomp sp fuel ⟨st.src.advance db, st.ops⟩ ch
            (st.src.readUint db) r.1 r.2 (by rw [h2])
        exact ⟨st.src.readUint db, inners, by rw [← h.1, hjoin], hlen, hcl,
          fun hc => absurd rfl hc, fun _ => ⟨by omega, rfl⟩⟩
      · rw [if_neg hy, exc_ok_bind] at h
        rcases h2 : specReplItems sp fuel ⟨st.src, st.ops⟩ ch y with er | r <;>
          rw [h2] at h
        · exact absurd h (by simp [exc_error_bind])
        rw [exc_ok_bind] at h
        simp only [Except.ok.injEq, Prod.mk.injEq] at h
        obtain ⟨inners, hjoin, hlen, hcl⟩ :=
          specReplItems_decomp sp fuel ⟨st.src, st.ops⟩ ch y r.1 r.2 (by rw [h2])
        exact ⟨y, inners, by rw [← h.1, hjoin], hlen, hcl,
          fun _ => rfl, fun hc => absurd hc hy⟩
  · intro si src ty ds nx stack0 ops db ch hds hdb
    rw [readEvent_dispatch sp si src ty ds nx stack0 ops _ hds,
      stepDescriptor_repl0 sp _ ty ds nx stack0 db ch (src.readUint db, src.advance db)
        (by unfold readVar16; rw [if_neg (by omega)])]

/-- A bit source whose first byte is 2 (a delayed count) followed by the
bytes 4 and 1. -/
def src6 : BitSrc := ⟨fun n => n == 6 || n == 13 || n == 23, 0⟩

/-- The trace of one delayed replication over that stream: count 2, two
item blocks. -/
def tr6 : List Event :=
  [.replicationStart 0 2,
   .replicationItemStart, .data 0 b8s0.xy (.integer 4), .replicationItemEnd,
   .replicationItemStart, .data 0 b8s0.xy (.integer 1), .replicationItemEnd,
   .replicationEnd]

/-- C6 (witness): on a stream carrying count byte 2 and two 8-bit items,
the delayed replication walk yields `ReplicationStart{count=2}` and two
matched item blocks, the count byte really decodes to 2, and `read_event`
at the delayed-replication descriptor reads those 8 bits then and there. -/
theorem c6_replication_witness :
    specWalkDesc spNC 10 ⟨src6, OpState.init⟩ 0 (.repl 0 8 [.data b8s0]) =
      .ok (tr6, ⟨⟨src6.bits, 24⟩, OpState.init⟩) ∧
    (∃ (k : ℕ) (inners : List (List Event)),
      tr6 = .replicationStart 0 k ::
        (inners.map fun iv =>
          .replicationItemStart :: iv ++ [.replicationItemEnd]).flatten
        ++ [.replicationEnd] ∧
      inners.length = k ∧
      (∀ iv ∈ inners, nestClosed iv = true) ∧
      ((0 : ℕ) ≠ 0 → k = 0) ∧
      ((0 : ℕ) = 0 → 8 ≤ 16 ∧ k = src6.readUint 8)) ∧
    src6.readUint 8 = 2 ∧
    readEvent spNC ⟨0, src6, [⟨.sequence, [.repl 0 8 [.data b8s0]], 0⟩], OpState.init⟩ =
      .ok (.replicationStart 0 (src6.readUint 8),
        ⟨0, src6.advance 8,
          [⟨.replication (src6.readUint 8) false, [.data b8s0], 1⟩,
           ⟨.sequence, [.repl 0 8 [.data b8s0]], 1⟩], OpState.init⟩) :=
  ⟨by rfl,
   (c6_replication spNC).1 10 ⟨src6, OpState.init⟩ 0 0 8 [.data b8s0] tr6
     ⟨⟨src6.bits, 24⟩, OpState.init⟩ (by rfl),
   by decide,
   (c6_replication spNC).2 0 src6 .sequence [.repl 0 8 [.data b8s0]] 0 []
     OpState.init 8 [.data b8s0] (by rfl) (by decide)⟩

end TinyBufr
